import Mathlib

/-!
Verification of the Symbol Index & Contextual Tree Renderer
(`openhands_aci/editor/navigator.py`, class `SymbolNavigator`).

The navigator is shallowly embedded: external collaborators
(version-control file listing, tree-sitter tag extraction, modification
times, file reads and the `TreeContext` excerpt renderer) are oracle
fields of a `FileSystem` record, while the navigator's own logic —
index construction, definition/reference queries, grouping, the
two-level render cache and output truncation — is translated function
by function from the source.  Python strings are modelled as `String` /
`List Char` (code points), Python `set`s as duplicate-free lists with
insertion order, Python `dict`s as association lists with first-match
lookup and in-place overwrite.
-/

/-- Kind of a parsed tag (`TagKind` in `tree_sitter/parser.py`). -/
inductive TagKind where
  | DEF : TagKind
  | REF : TagKind
deriving DecidableEq, Repr

/-- One occurrence of an identifier (`ParsedTag`).  Lines are 1-indexed,
`startLine`/`endLine` inclusive.  Equality is field-wise, matching the
dataclass equality used for set deduplication. -/
structure ParsedTag where
  absPath : String
  relPath : String
  nodeContent : String
  tagKind : TagKind
  startLine : Nat
  endLine : Nat
deriving DecidableEq, Repr

/-- Python `range(a, b + 1)` — the inclusive line range of a tag. -/
def rangeIncl (a b : Nat) : List Nat :=
  List.range' a (b + 1 - a)

/-- Whether `pat` is a prefix of `hay` (character lists). -/
def hasPrefixC : List Char → List Char → Bool
  | [], _ => true
  | _ :: _, [] => false
  | a :: asx, b :: bs => a = b && hasPrefixC asx bs

/-- Whether `pat` occurs as a contiguous substring of `hay`
(character lists); models Python `pat in hay` on strings. -/
def containsC (pat : List Char) : List Char → Bool
  | [] => hasPrefixC pat []
  | b :: bs => hasPrefixC pat (b :: bs) || containsC pat bs

/-- Python `pat in hay` for strings (substring containment). -/
def strIn (pat hay : String) : Bool :=
  containsC pat.data hay.data

/-- Lexicographic `≤` on character lists by code point; models Python
string comparison. -/
def leC : List Char → List Char → Bool
  | [], _ => true
  | _ :: _, [] => false
  | a :: asx, b :: bs => if a = b then leC asx bs else decide (a.toNat < b.toNat)

/-- The Python sort key comparison `(rel_path, start_line) ≤ …` used by
`def_tags_list.sort` / `ref_tags_list.sort`. -/
def tagLe (a b : ParsedTag) : Bool :=
  if a.relPath = b.relPath then decide (a.startLine ≤ b.startLine)
  else leC a.relPath.data b.relPath.data

/-- Relation form of `tagLe` as a `Prop`-valued relation for `List.insertionSort`. -/
def tagLeP (a b : ParsedTag) : Prop := tagLe a b = true

instance : DecidableRel tagLeP := fun a b =>
  inferInstanceAs (Decidable (tagLe a b = true))

/-- Strict lexicographic `<` on strings (code points). -/
def strLt (a b : String) : Prop := leC a.data b.data = true ∧ a ≠ b

/-- Python `sorted` on a list of naturals (any stable sort; Python's
sort is stable and stable sorts of a total preorder agree). -/
def pySortNat (l : List Nat) : List Nat :=
  List.insertionSort (· ≤ ·) l

/-- Remove consecutive duplicates (keeping the first of each run). -/
def dedupConsec {α : Type} [DecidableEq α] : List α → List α
  | [] => []
  | [a] => [a]
  | a :: b :: rest =>
    if a = b then dedupConsec (b :: rest) else a :: dedupConsec (b :: rest)

/-- Split a character list at every newline; each returned piece is
newline-free.  `splitNl [] = [[]]`, matching `str.split`. -/
def splitNl : List Char → List (List Char)
  | [] => [[]]
  | c :: rest =>
    if c = '\n' then [] :: splitNl rest
    else
      match splitNl rest with
      | [] => [[c]]
      | l :: ls => (c :: l) :: ls

/-- Python `str.splitlines()` for newline-separated text: split at each
newline and drop the trailing empty piece produced by a terminating
newline; the empty string yields no lines. -/
def pySplitlines (s : List Char) : List (List Char) :=
  if s = [] then []
  else
    let parts := splitNl s
    if parts.getLast? = some [] then parts.dropLast else parts

/-- Defensive truncation `'\n'.join(line[:150] for line in output.splitlines())` at the end of `tag_list_to_tree`. -/
def truncateLines (s : String) : String :=
  ⟨List.intercalate ['\n'] ((pySplitlines s.data).map (fun l => l.take 150))⟩

/-- Python `str.endswith('\n')`. -/
def endsWithNl (s : String) : Bool :=
  s.data.getLast? = some '\n'

/-- Trailing-newline fixup `if not code.endswith('\n'): code += '\n'` from `render_tree`. -/
def ensureNl (s : String) : String :=
  if endsWithNl s then s else s ++ "\n"

/-- First-match association-list lookup (Python `dict` access /
`dict.get`). -/
def alookup {α β : Type} [DecidableEq α] (k : α) : List (α × β) → Option β
  | [] => none
  | (k', v) :: rest => if k' = k then some v else alookup k rest

/-- Association-list lookup with default (Python `dict.get(k, d)`). -/
def alGetD {α β : Type} [DecidableEq α] (m : List (α × β)) (k : α) (d : β) : β :=
  (alookup k m).getD d

/-- Python `dict` assignment `m[k] = v`: overwrite in place, insert at
the end when absent. -/
def alinsert {α β : Type} [DecidableEq α] (k : α) (v : β) : List (α × β) → List (α × β)
  | [] => [(k, v)]
  | (k', v') :: rest =>
    if k' = k then (k, v) :: rest else (k', v') :: alinsert k v rest

/-- Bucket update for a `defaultdict`: apply `f` to the bucket of `k`,
starting from the default `d` when `k` is absent. -/
def alUpdate {α β : Type} [DecidableEq α] (k : α) (f : β → β) (d : β) :
    List (α × β) → List (α × β)
  | [] => [(k, f d)]
  | (k', v) :: rest =>
    if k' = k then (k', f v) :: rest else (k', v) :: alUpdate k f d rest

/-- Element insertion for `defaultdict(set)`: the set is a duplicate-free
list in insertion order. -/
def alAddSet {α β : Type} [DecidableEq α] [DecidableEq β]
    (m : List (α × List β)) (k : α) (v : β) : List (α × List β) :=
  alUpdate k (fun s => if v ∈ s then s else s ++ [v]) [] m

/-- Append for `defaultdict(list)`. -/
def alAddList {α β : Type} [DecidableEq α]
    (m : List (α × List β)) (k : α) (v : β) : List (α × List β) :=
  alUpdate k (fun s => s ++ [v]) [] m

/-- Python `set.update`: fold elements into a duplicate-free list. -/
def setUnionTags (acc l : List ParsedTag) : List ParsedTag :=
  l.foldl (fun a t => if t ∈ a then a else a ++ [t]) acc

/-- Oracle record for the navigator's external collaborators
(`GitRepoUtils`, `PathUtils`, `TreeSitterParser`, `get_modified_time`,
`read_text`, and the `grep_ast.TreeContext` excerpt renderer).
`listing` is `Except`: a listing failure is the exception raised when no
version control is present.  `extract` is `Option`: `none` is a per-file
extraction failure / unreadable file.  `renderFmt` is the pure excerpt
renderer, a function of the display file name, the file text and the set
of lines of interest (represented canonically as a sorted duplicate-free
list), per the `ContextRenderer` contract of spec §6. -/
structure FileSystem where
  listing : Except String (List String)
  relOf : String → String
  extract : String → String → Option (List ParsedTag)
  mtimeOf : String → Nat
  readText : String → Option String
  renderFmt : String → String → List Nat → String

/-- Modelled from the spec: `TreeSitterParser.get_tags_from_file` is not
in the sources under verification (only its caller is).  Spec §4.1/§6:
extraction failure or an unreadable / unsupported file yields an empty
tag sequence rather than raising, so the scan skips the file and
continues. -/
def get_tags_from_file (fs : FileSystem) (absFile relFile : String) : List ParsedTag :=
  (fs.extract absFile relFile).getD []

/-- The four query indices built by `get_parsed_tags`. -/
structure SymbolIndex where
  ident2defrels : List (String × List String)
  ident2refrels : List (String × List String)
  identwrel2deftags : List ((String × String) × List ParsedTag)
  identwrel2reftags : List ((String × String) × List ParsedTag)
deriving DecidableEq, Repr

/-- The empty index (the four fresh `defaultdict`s). -/
def emptyIndex : SymbolIndex := ⟨[], [], [], []⟩

/-- Fold one parsed tag into the four indices (the body of the inner
loop of `get_parsed_tags`; the two `if` tests are kept as in source). -/
def addTagToIndex (relFile : String) (idx : SymbolIndex) (t : ParsedTag) : SymbolIndex :=
  let idx1 :=
    if t.tagKind = TagKind.DEF then
      { idx with
        ident2defrels := alAddSet idx.ident2defrels t.nodeContent relFile,
        identwrel2deftags := alAddSet idx.identwrel2deftags (relFile, t.nodeContent) t }
    else idx
  if t.tagKind = TagKind.REF then
    { idx1 with
      ident2refrels := alAddList idx1.ident2refrels t.nodeContent relFile,
      identwrel2reftags := alAddSet idx1.identwrel2reftags (relFile, t.nodeContent) t }
  else idx1

/-- The file scan of `get_parsed_tags`: one linear pass over the tracked
files, folding every extracted tag into the indices. -/
def buildIndex (fs : FileSystem) (files : List String) : SymbolIndex :=
  files.foldl
    (fun idx absFile =>
      let relFile := fs.relOf absFile
      (get_tags_from_file fs absFile relFile).foldl (addTagToIndex relFile) idx)
    emptyIndex

/-- Model of `SymbolNavigator.get_parsed_tags` (queries call it with no scoping
arguments).  A listing failure propagates as the exception it is. -/
def get_parsed_tags (fs : FileSystem) : Except String SymbolIndex :=
  match fs.listing with
  | Except.error e => Except.error e
  | Except.ok files => Except.ok (buildIndex fs files)

/-- One entry of `file_context_cache`: the parsed `TreeContext` handle
(determined by the file text it was built from) and the modification
time it was cached at. -/
structure FileCtx where
  code : String
  mtime : Nat
deriving DecidableEq, Repr

/-- The navigator's two caches (`file_context_cache`,
`rendered_tree_cache`), keyed as in source. -/
structure NavState where
  fileCtxCache : List (String × FileCtx)
  renderedCache : List ((String × List Nat × Nat) × String)
deriving DecidableEq, Repr

/-- Fresh navigator caches. -/
def navEmpty : NavState := ⟨[], []⟩

/-- The rendered-tree cache key computed by `render_tree`:
`(rel_file, tuple(sorted(lois)), mtime)` — sorted, duplicates kept. -/
def renderKey (fs : FileSystem) (absFile relFile : String) (lois : List Nat) :
    String × List Nat × Nat :=
  (relFile, pySortNat lois, fs.mtimeOf absFile)

/-- The cache key as the spec describes it: `(relative_path,
sorted_distinct_lines_of_interest, modification_time)` — this definition
follows the spec's words, for comparison with `renderKey` above. -/
def specRenderKey (fs : FileSystem) (absFile relFile : String) (lois : List Nat) :
    String × List Nat × Nat :=
  (relFile, dedupConsec (pySortNat lois), fs.mtimeOf absFile)

/-- Result of `render_tree`: the excerpt text, the updated caches, and
the number of `read_text` calls performed (0 or 1). -/
structure RenderRes where
  text : String
  nav : NavState
  reads : Nat
deriving DecidableEq, Repr

/-- Model of `SymbolNavigator.render_tree`.  Step 1: rendered-tree cache probe
under `renderKey`.  Step 2: reuse the parsed-context handle unless the
file is new or its cached mtime is older than the current one, in which
case the file is re-read (`read_text(abs_file) or ''`, then a trailing
newline is ensured) and a fresh handle stored.  Step 3/4: render with
exactly the given lines of interest, store under the key, return. -/
def render_tree (fs : FileSystem) (nav : NavState) (absFile relFile : String)
    (lois : List Nat) : RenderRes :=
  let mtime := fs.mtimeOf absFile
  let key := renderKey fs absFile relFile lois
  match alookup key nav.renderedCache with
  | some res => ⟨res, nav, 0⟩
  | none =>
    let fresh : FileCtx × NavState × Nat :=
      let code := ensureNl ((fs.readText absFile).getD "")
      (⟨code, mtime⟩,
       { nav with fileCtxCache := alinsert relFile ⟨code, mtime⟩ nav.fileCtxCache },
       1)
    let step2 : FileCtx × NavState × Nat :=
      match alookup relFile nav.fileCtxCache with
      | some e => if e.mtime < mtime then fresh else (e, nav, 0)
      | none => fresh
    let res := fs.renderFmt relFile step2.1.code (dedupConsec (pySortNat lois))
    ⟨res,
     { step2.2.1 with renderedCache := alinsert key res step2.2.1.renderedCache },
     step2.2.2⟩

/-- Ghost record of one `render_tree` invocation made by
`tag_list_to_tree`: the file and the raw lines of interest passed. -/
structure RenderCall where
  absFile : String
  relFile : String
  lois : List Nat
deriving DecidableEq, Repr

/-- The lines of interest contributed by one tag:
`list(range(tag.start_line, tag.end_line + 1)) if use_end_line else
[tag.start_line]`. -/
def loisOf (useEndLine : Bool) (tag : ParsedTag) : List Nat :=
  if useEndLine then rangeIncl tag.startLine tag.endLine else [tag.startLine]

/-- Loop state of `tag_list_to_tree`: the source's `cur_rel_file`,
`cur_abs_file`, `lois` and `output`, threaded cache state and read
count, plus ghost logs of the render calls made and the per-file
section headers emitted. -/
structure LoopSt where
  curRel : String
  curAbs : String
  lois : List Nat
  out : String
  nav : NavState
  reads : Nat
  calls : List RenderCall
  files : List String
deriving DecidableEq, Repr

/-- The dummy tag appended to flush the last file group. -/
def dummyTag : ParsedTag :=
  ⟨"", "", "", TagKind.DEF, 0, 0⟩

/-- One iteration of the `for tag in tags + [dummy_tag]` loop. -/
def ttStep (fs : FileSystem) (useEndLine : Bool) (st : LoopSt) (tag : ParsedTag) :
    LoopSt :=
  let st1 :=
    if tag.relPath ≠ st.curRel then
      let st0 :=
        if st.lois ≠ [] then
          let r := render_tree fs st.nav st.curAbs st.curRel st.lois
          { st with
            out := st.out ++ st.curRel ++ ":\n" ++ r.text,
            lois := [],
            nav := r.nav,
            reads := st.reads + r.reads,
            calls := st.calls ++ [⟨st.curAbs, st.curRel, st.lois⟩],
            files := st.files ++ [st.curRel] }
        else if st.curRel ≠ "" then
          { st with
            out := st.out ++ "\n" ++ st.curRel ++ ":\n",
            files := st.files ++ [st.curRel] }
        else st
      { st0 with curAbs := tag.absPath, curRel := tag.relPath }
    else st
  { st1 with lois := st1.lois ++ loisOf useEndLine tag }

/-- The loop of `tag_list_to_tree` as a left fold. -/
def ttLoop (fs : FileSystem) (useEndLine : Bool) : List ParsedTag → LoopSt → LoopSt
  | [], st => st
  | t :: ts, st => ttLoop fs useEndLine ts (ttStep fs useEndLine st t)

/-- Result of `tag_list_to_tree` (text, caches, reads, ghost logs). -/
structure TreeRes where
  text : String
  nav : NavState
  reads : Nat
  calls : List RenderCall
  files : List String
deriving DecidableEq, Repr

/-- Model of `SymbolNavigator.tag_list_to_tree`: early return on an empty tag
list, the grouping loop over `tags + [dummy_tag]`, then per-line
truncation to 150 characters. -/
def tag_list_to_tree (fs : FileSystem) (nav : NavState) (tags : List ParsedTag)
    (useEndLine : Bool) : TreeRes :=
  if tags = [] then ⟨"", nav, 0, [], []⟩
  else
    let e := ttLoop fs useEndLine (tags ++ [dummyTag]) ⟨"", "", [], "", nav, 0, [], []⟩
    ⟨truncateLines e.out, e.nav, e.reads, e.calls, e.files⟩

/-- The union of definition tags for `symbol` over its candidate files,
with the optional loose (substring) relative-path filter:
`if rel_file_path is not None and rel_file_path not in def_rel: continue`.
Empty symbol skips the lookup entirely. -/
def collectDefTags (idx : SymbolIndex) (symbol : String)
    (relFilePath : Option String) : List ParsedTag :=
  if symbol ≠ "" then
    (alGetD idx.ident2defrels symbol []).foldl
      (fun acc defRel =>
        match relFilePath with
        | some f =>
          if strIn f defRel then
            setUnionTags acc (alGetD idx.identwrel2deftags (defRel, symbol) [])
          else acc
        | none =>
          setUnionTags acc (alGetD idx.identwrel2deftags (defRel, symbol) []))
      []
  else []

/-- The union of reference tags for `symbol` (no guard, no filter). -/
def collectRefTags (idx : SymbolIndex) (symbol : String) : List ParsedTag :=
  (alGetD idx.ident2refrels symbol []).foldl
    (fun acc refRel =>
      setUnionTags acc (alGetD idx.identwrel2reftags (refRel, symbol) []))
    []

/-- Result of a query: the returned string, the updated caches, the
`read_text` count, and ghost logs (render calls, emitted file sections,
the sorted tag list that was rendered). -/
structure QueryOut where
  text : String
  nav : NavState
  reads : Nat
  calls : List RenderCall
  files : List String
  tags : List ParsedTag
deriving DecidableEq, Repr

/-- Model of `SymbolNavigator.get_definitions_tree` (the `findDefinitions` query).
Python's stable `list.sort` on the key `(rel_path, start_line)` is
modelled by stable insertion sort under `tagLeP`. -/
def get_definitions_tree (fs : FileSystem) (nav : NavState) (symbol : String)
    (relFilePath : Option String) (useEndLine : Bool) : Except String QueryOut :=
  match get_parsed_tags fs with
  | Except.error e => Except.error e
  | Except.ok idx =>
    let sortedTags := List.insertionSort tagLeP (collectDefTags idx symbol relFilePath)
    let tr := tag_list_to_tree fs nav sortedTags useEndLine
    Except.ok
      ⟨"\nDefinition(s) of `" ++ symbol ++ "`:\n" ++ tr.text ++ "\n",
       tr.nav, tr.reads, tr.calls, tr.files, sortedTags⟩

/-- Model of `SymbolNavigator.get_references_tree` (the `findReferences` query);
`use_end_line` is hard-coded `False`. -/
def get_references_tree (fs : FileSystem) (nav : NavState) (symbol : String) :
    Except String QueryOut :=
  match get_parsed_tags fs with
  | Except.error e => Except.error e
  | Except.ok idx =>
    let sortedTags := List.insertionSort tagLeP (collectRefTags idx symbol)
    let tr := tag_list_to_tree fs nav sortedTags false
    Except.ok
      ⟨"\nReferences to `" ++ symbol ++ "`:\n" ++ tr.text ++ "\n",
       tr.nav, tr.reads, tr.calls, tr.files, sortedTags⟩

/-- Concatenation of the lines of interest of a run of tags (the value
`lois` accumulates over one file group). -/
def loisConcat (useEndLine : Bool) : List ParsedTag → List Nat
  | [] => []
  | t :: ts => loisOf useEndLine t ++ loisConcat useEndLine ts

/-- Ghost reference recursion mirroring the grouping loop of
`tag_list_to_tree` over `tags + [dummy_tag]`: from the current group
`(curAbs, curRel, lois)`, compute the render calls made (first
component) and the per-file section headers emitted (second component).
The base case is the flush triggered by the dummy tag (whose relative
path is empty). -/
def ghostSpec (useEndLine : Bool) (curAbs curRel : String) (lois : List Nat) :
    List ParsedTag → List RenderCall × List String
  | [] =>
    (if curRel ≠ "" ∧ lois ≠ [] then [⟨curAbs, curRel, lois⟩] else [],
     if curRel ≠ "" then [curRel] else [])
  | t :: ts =>
    if t.relPath ≠ curRel then
      let rest := ghostSpec useEndLine t.absPath t.relPath (loisOf useEndLine t) ts
      ((if lois ≠ [] then [⟨curAbs, curRel, lois⟩] else []) ++ rest.1,
       (if lois ≠ [] ∨ curRel ≠ "" then [curRel] else []) ++ rest.2)
    else ghostSpec useEndLine curAbs curRel (lois ++ loisOf useEndLine t) ts

/-- Extractor contract (spec §6): every tag yielded for a file carries
the relative path the extractor was invoked with. -/
def ExtractWF (fs : FileSystem) : Prop :=
  ∀ absf relf t, t ∈ get_tags_from_file fs absf relf → t.relPath = relf

/-- Path-conversion contract: project-relative paths of tracked files
are nonempty. -/
def RelOfWF (fs : FileSystem) : Prop :=
  ∀ absf, fs.relOf absf ≠ ""

/-- Concrete oracle fixture: two tracked Python files; `a.py` defines
`f` twice (lines 1–1 and 1–2, overlapping) and references `g`; `b.py`
defines `f` at lines 3–4 and references `f` at line 7. -/
def fsW : FileSystem :=
  { listing := Except.ok ["/r/a.py", "/r/b.py"]
  , relOf := fun a => if a = "/r/a.py" then "a.py" else if a = "/r/b.py" then "b.py" else "c.py"
  , extract := fun a r =>
      if a = "/r/a.py" then
        some [ ⟨a, r, "f", TagKind.DEF, 1, 1⟩
             , ⟨a, r, "f", TagKind.DEF, 1, 2⟩
             , ⟨a, r, "g", TagKind.REF, 5, 5⟩ ]
      else if a = "/r/b.py" then
        some [ ⟨a, r, "f", TagKind.DEF, 3, 4⟩
             , ⟨a, r, "f", TagKind.REF, 7, 7⟩ ]
      else none
  , mtimeOf := fun _ => 42
  , readText := fun _ => some "l1\nl2\nl3\nl4\n"
  , renderFmt := fun rel _ lois => "R[" ++ rel ++ toString lois ++ "]\n" }

/-- Fixture for a listing failure: the exception raised by
`GitRepoUtils` when no version control is present (the scenario of
`test_navigation_no_git_repo`). -/
def fsNoGit : FileSystem :=
  { listing := Except.error "No git repository found"
  , relOf := fun a => a
  , extract := fun _ _ => some []
  , mtimeOf := fun _ => 0
  , readText := fun _ => none
  , renderFmt := fun _ _ _ => "" }

/-- Fixture with an unreadable tracked file `/r/broken.bin` between two
parsable ones (extraction yields `none` for it). -/
def fsFail : FileSystem :=
  { fsW with listing := Except.ok ["/r/a.py", "/r/broken.bin", "/r/b.py"] }

/-- A 131-character symbol name; its definitions header line is
`Definition(s) of ` + 131 characters + backtick-colon = 151 characters. -/
def s131 : String := ⟨List.replicate 131 'a'⟩

/-- The recorded outcome of `get_definitions_tree fsW navEmpty "f"`
(used to instantiate theorems with hypotheses at a concrete run). -/
def defsRunW : QueryOut :=
  match get_definitions_tree fsW navEmpty "f" none true with
  | Except.ok q => q
  | Except.error _ => ⟨"", navEmpty, 0, [], [], []⟩

/-- The recorded outcome of `get_references_tree fsW navEmpty "f"`. -/
def refsRunW : QueryOut :=
  match get_references_tree fsW navEmpty "f" with
  | Except.ok q => q
  | Except.error _ => ⟨"", navEmpty, 0, [], [], []⟩

/-- A stale cache state for `a.py`: parsed context and one rendered
tree, both recorded at modification time 10 (older than `fsW`'s current
42). -/
def navStale : NavState :=
  ⟨[("a.py", ⟨"old\n", 10⟩)], [(("a.py", [1], 10), "OLD")]⟩

/-- A one-element tag list used to instantiate the truncation theorem. -/
def tagsW : List ParsedTag :=
  [⟨"/r/a.py", "a.py", "f", TagKind.DEF, 1, 2⟩]

/-- The recorded outcome of the path-filtered query
`get_definitions_tree fsW navEmpty "f" (some "b")`. -/
def defsRunWFil : QueryOut :=
  match get_definitions_tree fsW navEmpty "f" (some "b") true with
  | Except.ok q => q
  | Except.error _ => ⟨"", navEmpty, 0, [], [], []⟩

/-- Lookup after overwrite at the same key. -/
theorem alookup_alinsert_self {α β : Type} [DecidableEq α] (k : α) (v : β) :
    ∀ m : List (α × β), alookup k (alinsert k v m) = some v := by
  intro m
  induction m with
  | nil => simp [alinsert, alookup]
  | cons p rest ih =>
    obtain ⟨k', v'⟩ := p
    by_cases h : k' = k
    · simp [alinsert, h, alookup]
    · simp [alinsert, h, alookup, ih]

/-- Lookup after overwrite at a different key. -/
theorem alookup_alinsert_ne {α β : Type} [DecidableEq α] {k k0 : α} (v : β)
    (h : k0 ≠ k) : ∀ m : List (α × β), alookup k0 (alinsert k v m) = alookup k0 m := by
  intro m
  induction m with
  | nil => simp [alinsert, alookup, Ne.symm h]
  | cons p rest ih =>
    obtain ⟨k', v'⟩ := p
    by_cases hk : k' = k
    · subst hk
      simp [alinsert, alookup, Ne.symm h]
    · simp [alinsert, hk, alookup, ih]

/-- Lookup after a bucket update, same key. -/
theorem alookup_alUpdate_self {α β : Type} [DecidableEq α] (k : α) (f : β → β) (d : β) :
    ∀ m : List (α × β), alookup k (alUpdate k f d m) = some (f (alGetD m k d)) := by
  intro m
  induction m with
  | nil => simp [alUpdate, alookup, alGetD]
  | cons p rest ih =>
    obtain ⟨k', v'⟩ := p
    by_cases h : k' = k
    · simp [alUpdate, h, alookup, alGetD]
    · simp [alUpdate, h, alookup, alGetD, ih]

/-- Lookup after a bucket update, different key. -/
theorem alookup_alUpdate_ne {α β : Type} [DecidableEq α] {k k0 : α} (f : β → β) (d : β)
    (h : k0 ≠ k) : ∀ m : List (α × β), alookup k0 (alUpdate k f d m) = alookup k0 m := by
  intro m
  induction m with
  | nil => simp [alUpdate, alookup, Ne.symm h]
  | cons p rest ih =>
    obtain ⟨k', v'⟩ := p
    by_cases hk : k' = k
    · subst hk
      simp [alUpdate, alookup, Ne.symm h]
    · simp [alUpdate, hk, alookup, ih]

/-- Membership in a `set.update` fold. -/
theorem mem_setUnionTags :
    ∀ (l acc : List ParsedTag) (t : ParsedTag),
      t ∈ setUnionTags acc l ↔ t ∈ acc ∨ t ∈ l := by
  intro l
  induction l with
  | nil => intro acc t; simp [setUnionTags]
  | cons x l ih =>
    intro acc t
    have step : setUnionTags acc (x :: l)
        = setUnionTags (if x ∈ acc then acc else acc ++ [x]) l := rfl
    rw [step, ih]
    by_cases hx : x ∈ acc
    · simp only [if_pos hx, List.mem_cons]
      constructor
      · rintro (h | h)
        · exact Or.inl h
        · exact Or.inr (Or.inr h)
      · rintro (h | h | h)
        · exact Or.inl h
        · exact Or.inl (h ▸ hx)
        · exact Or.inr h
    · simp only [if_neg hx, List.mem_append, List.mem_singleton, List.mem_cons]
      tauto

/-- Membership in a bucket after `defaultdict(set)` insertion. -/
theorem mem_alAddSet {α β : Type} [DecidableEq α] [DecidableEq β]
    (m : List (α × List β)) (k : α) (v : β) (k0 : α) (x : β) :
    x ∈ alGetD (alAddSet m k v) k0 [] ↔
      x ∈ alGetD m k0 [] ∨ (k0 = k ∧ x = v) := by
  by_cases h : k0 = k
  · subst h
    unfold alAddSet
    rw [alGetD, alookup_alUpdate_self]
    by_cases hv : v ∈ alGetD m k0 []
    · simp only [Option.getD_some, if_pos hv]
      constructor
      · exact fun hx => Or.inl hx
      · rintro (hx | ⟨-, hx⟩)
        · exact hx
        · exact hx ▸ hv
    · simp only [Option.getD_some, if_neg hv, List.mem_append, List.mem_singleton]
      tauto
  · unfold alAddSet
    rw [alGetD, alookup_alUpdate_ne _ _ h]
    simp [alGetD, h]

/-- Definition-tag buckets after folding one tag into the index. -/
theorem mem_addTag_def (relFile : String) (idx : SymbolIndex) (tg : ParsedTag)
    (rel sym : String) (t : ParsedTag) :
    t ∈ alGetD (addTagToIndex relFile idx tg).identwrel2deftags (rel, sym) [] ↔
      t ∈ alGetD idx.identwrel2deftags (rel, sym) [] ∨
        (tg.tagKind = TagKind.DEF ∧ rel = relFile ∧ sym = tg.nodeContent ∧ t = tg) := by
  cases hk : tg.tagKind with
  | DEF =>
    have : (addTagToIndex relFile idx tg).identwrel2deftags
        = alAddSet idx.identwrel2deftags (relFile, tg.nodeContent) tg := by
      simp [addTagToIndex, hk]
    rw [this, mem_alAddSet]
    simp only [hk, Prod.ext_iff, true_and]
    tauto
  | REF =>
    have : (addTagToIndex relFile idx tg).identwrel2deftags = idx.identwrel2deftags := by
      simp [addTagToIndex, hk]
    rw [this]
    simp [hk]

/-- Reference-tag buckets after folding one tag into the index. -/
theorem mem_addTag_ref (relFile : String) (idx : SymbolIndex) (tg : ParsedTag)
    (rel sym : String) (t : ParsedTag) :
    t ∈ alGetD (addTagToIndex relFile idx tg).identwrel2reftags (rel, sym) [] ↔
      t ∈ alGetD idx.identwrel2reftags (rel, sym) [] ∨
        (tg.tagKind = TagKind.REF ∧ rel = relFile ∧ sym = tg.nodeContent ∧ t = tg) := by
  cases hk : tg.tagKind with
  | REF =>
    have : (addTagToIndex relFile idx tg).identwrel2reftags
        = alAddSet idx.identwrel2reftags (relFile, tg.nodeContent) tg := by
      simp [addTagToIndex, hk]
    rw [this, mem_alAddSet]
    simp only [hk, Prod.ext_iff, true_and]
    tauto
  | DEF =>
    have : (addTagToIndex relFile idx tg).identwrel2reftags = idx.identwrel2reftags := by
      simp [addTagToIndex, hk]
    rw [this]
    simp [hk]

/-- Folding a file's tag list only adds definition-bucket entries for
that file's relative path and tags. -/
theorem foldTags_def_sound (relFile : String) :
    ∀ (tags : List ParsedTag) (idx : SymbolIndex) (rel sym : String) (t : ParsedTag),
      t ∈ alGetD (tags.foldl (addTagToIndex relFile) idx).identwrel2deftags (rel, sym) [] →
      t ∈ alGetD idx.identwrel2deftags (rel, sym) [] ∨ (rel = relFile ∧ t ∈ tags) := by
  intro tags
  induction tags with
  | nil => intro idx rel sym t h; exact Or.inl h
  | cons tg tags ih =>
    intro idx rel sym t h
    rcases ih (addTagToIndex relFile idx tg) rel sym t h with h1 | h1
    · rcases (mem_addTag_def relFile idx tg rel sym t).mp h1 with h2 | h2
      · exact Or.inl h2
      · exact Or.inr ⟨h2.2.1, by simp [h2.2.2.2]⟩
    · exact Or.inr ⟨h1.1, List.mem_cons_of_mem _ h1.2⟩

/-- Folding a file's tag list only adds reference-bucket entries for
that file's relative path and tags. -/
theorem foldTags_ref_sound (relFile : String) :
    ∀ (tags : List ParsedTag) (idx : SymbolIndex) (rel sym : String) (t : ParsedTag),
      t ∈ alGetD (tags.foldl (addTagToIndex relFile) idx).identwrel2reftags (rel, sym) [] →
      t ∈ alGetD idx.identwrel2reftags (rel, sym) [] ∨ (rel = relFile ∧ t ∈ tags) := by
  intro tags
  induction tags with
  | nil => intro idx rel sym t h; exact Or.inl h
  | cons tg tags ih =>
    intro idx rel sym t h
    rcases ih (addTagToIndex relFile idx tg) rel sym t h with h1 | h1
    · rcases (mem_addTag_ref relFile idx tg rel sym t).mp h1 with h2 | h2
      · exact Or.inl h2
      · exact Or.inr ⟨h2.2.1, by simp [h2.2.2.2]⟩
    · exact Or.inr ⟨h1.1, List.mem_cons_of_mem _ h1.2⟩

/-- Every definition-bucket entry of the built index comes from some
scanned file, under that file's computed relative path. -/
theorem buildIndex_def_sound (fs : FileSystem) :
    ∀ (files : List String) (rel sym : String) (t : ParsedTag),
      t ∈ alGetD (buildIndex fs files).identwrel2deftags (rel, sym) [] →
      ∃ absf, absf ∈ files ∧ rel = fs.relOf absf ∧
        t ∈ get_tags_from_file fs absf (fs.relOf absf) := by
  have main : ∀ (files : List String) (idx : SymbolIndex) (rel sym : String) (t : ParsedTag),
      t ∈ alGetD (files.foldl
          (fun idx absFile =>
            (get_tags_from_file fs absFile (fs.relOf absFile)).foldl
              (addTagToIndex (fs.relOf absFile)) idx)
          idx).identwrel2deftags (rel, sym) [] →
      t ∈ alGetD idx.identwrel2deftags (rel, sym) [] ∨
        ∃ absf, absf ∈ files ∧ rel = fs.relOf absf ∧
          t ∈ get_tags_from_file fs absf (fs.relOf absf) := by
    intro files
    induction files with
    | nil => intro idx rel sym t h; exact Or.inl h
    | cons f files ih =>
      intro idx rel sym t h
      rcases ih _ rel sym t h with h1 | h1
      · rcases foldTags_def_sound (fs.relOf f) _ idx rel sym t h1 with h2 | h2
        · exact Or.inl h2
        · exact Or.inr ⟨f, by simp, h2.1, h2.1 ▸ h2.2⟩
      · obtain ⟨absf, hmem, hrel, htag⟩ := h1
        exact Or.inr ⟨absf, List.mem_cons_of_mem _ hmem, hrel, htag⟩
  intro files rel sym t h
  rcases main files emptyIndex rel sym t h with h1 | h1
  · simp [emptyIndex, alGetD, alookup] at h1
  · exact h1

/-- Every reference-bucket entry of the built index comes from some
scanned file, under that file's computed relative path. -/
theorem buildIndex_ref_sound (fs : FileSystem) :
    ∀ (files : List String) (rel sym : String) (t : ParsedTag),
      t ∈ alGetD (buildIndex fs files).identwrel2reftags (rel, sym) [] →
      ∃ absf, absf ∈ files ∧ rel = fs.relOf absf ∧
        t ∈ get_tags_from_file fs absf (fs.relOf absf) := by
  have main : ∀ (files : List String) (idx : SymbolIndex) (rel sym : String) (t : ParsedTag),
      t ∈ alGetD (files.foldl
          (fun idx absFile =>
            (get_tags_from_file fs absFile (fs.relOf absFile)).foldl
              (addTagToIndex (fs.relOf absFile)) idx)
          idx).identwrel2reftags (rel, sym) [] →
      t ∈ alGetD idx.identwrel2reftags (rel, sym) [] ∨
        ∃ absf, absf ∈ files ∧ rel = fs.relOf absf ∧
          t ∈ get_tags_from_file fs absf (fs.relOf absf) := by
    intro files
    induction files with
    | nil => intro idx rel sym t h; exact Or.inl h
    | cons f files ih =>
      intro idx rel sym t h
      rcases ih _ rel sym t h with h1 | h1
      · rcases foldTags_ref_sound (fs.relOf f) _ idx rel sym t h1 with h2 | h2
        · exact Or.inl h2
        · exact Or.inr ⟨f, by simp, h2.1, h2.1 ▸ h2.2⟩
      · obtain ⟨absf, hmem, hrel, htag⟩ := h1
        exact Or.inr ⟨absf, List.mem_cons_of_mem _ hmem, hrel, htag⟩
  intro files rel sym t h
  rcases main files emptyIndex rel sym t h with h1 | h1
  · simp [emptyIndex, alGetD, alookup] at h1
  · exact h1

/-- Membership in the filtered union computed by `collectDefTags`. -/
theorem mem_collectDefTags (idx : SymbolIndex) (sym : String) (flt : Option String)
    (t : ParsedTag) :
    t ∈ collectDefTags idx sym flt ↔
      sym ≠ "" ∧ ∃ rel, rel ∈ alGetD idx.ident2defrels sym [] ∧
        (∀ f, flt = some f → strIn f rel = true) ∧
        t ∈ alGetD idx.identwrel2deftags (rel, sym) [] := by
  have fold : ∀ (p : String → Bool) (rels : List String) (acc : List ParsedTag),
      t ∈ rels.foldl
          (fun acc rel =>
            if p rel then setUnionTags acc (alGetD idx.identwrel2deftags (rel, sym) [])
            else acc) acc ↔
        t ∈ acc ∨ ∃ rel, rel ∈ rels ∧ p rel = true ∧
          t ∈ alGetD idx.identwrel2deftags (rel, sym) [] := by
    intro p rels
    induction rels with
    | nil => intro acc; simp
    | cons r rels ih =>
      intro acc
      by_cases hp : p r = true
      · simp only [List.foldl_cons, hp, if_true, ih, mem_setUnionTags, List.mem_cons]
        constructor
        · rintro ((h | h) | ⟨rel, hm, hpr, hb⟩)
          · exact Or.inl h
          · exact Or.inr ⟨r, Or.inl rfl, hp, h⟩
          · exact Or.inr ⟨rel, Or.inr hm, hpr, hb⟩
        · rintro (h | ⟨rel, hm | hm, hpr, hb⟩)
          · exact Or.inl (Or.inl h)
          · exact Or.inl (Or.inr (hm ▸ hb))
          · exact Or.inr ⟨rel, hm, hpr, hb⟩
      · simp only [List.foldl_cons, hp, if_false, ih, List.mem_cons]
        constructor
        · rintro (h | ⟨rel, hm, hpr, hb⟩)
          · exact Or.inl h
          · exact Or.inr ⟨rel, Or.inr hm, hpr, hb⟩
        · rintro (h | ⟨rel, hm | hm, hpr, hb⟩)
          · exact Or.inl h
          · exact absurd hpr (hm ▸ hp)
          · exact Or.inr ⟨rel, hm, hpr, hb⟩
  by_cases hs : sym = ""
  · subst hs
    simp [collectDefTags]
  · unfold collectDefTags
    rw [if_pos hs]
    cases flt with
    | none =>
      have eq1 : (fun (acc : List ParsedTag) (defRel : String) =>
            setUnionTags acc (alGetD idx.identwrel2deftags (defRel, sym) []))
          = fun acc rel =>
            if (fun (_ : String) => true) rel then
              setUnionTags acc (alGetD idx.identwrel2deftags (rel, sym) [])
            else acc := by
        funext acc rel
        simp
      rw [eq1, fold]
      simp [hs]
    | some f =>
      have eq1 : (fun (acc : List ParsedTag) (defRel : String) =>
            if strIn f defRel then
              setUnionTags acc (alGetD idx.identwrel2deftags (defRel, sym) [])
            else acc)
          = fun acc rel =>
            if strIn f rel then
              setUnionTags acc (alGetD idx.identwrel2deftags (rel, sym) [])
            else acc := rfl
      rw [eq1, fold]
      simp only [List.not_mem_nil, false_or, ne_eq, hs, not_false_iff, true_and]
      constructor
      · rintro ⟨rel, hm, hpr, hb⟩
        exact ⟨rel, hm, fun g hg => by cases hg; exact hpr, hb⟩
      · rintro ⟨rel, hm, hpr, hb⟩
        exact ⟨rel, hm, hpr f rfl, hb⟩

/-- Membership in the union computed by `collectRefTags`. -/
theorem mem_collectRefTags (idx : SymbolIndex) (sym : String) (t : ParsedTag) :
    t ∈ collectRefTags idx sym ↔
      ∃ rel, rel ∈ alGetD idx.ident2refrels sym [] ∧
        t ∈ alGetD idx.identwrel2reftags (rel, sym) [] := by
  have fold : ∀ (rels : List String) (acc : List ParsedTag),
      t ∈ rels.foldl
          (fun acc rel => setUnionTags acc (alGetD idx.identwrel2reftags (rel, sym) []))
          acc ↔
        t ∈ acc ∨ ∃ rel, rel ∈ rels ∧ t ∈ alGetD idx.identwrel2reftags (rel, sym) [] := by
    intro rels
    induction rels with
    | nil => intro acc; simp
    | cons r rels ih =>
      intro acc
      simp only [List.foldl_cons, ih, mem_setUnionTags, List.mem_cons]
      constructor
      · rintro ((h | h) | ⟨rel, hm, hb⟩)
        · exact Or.inl h
        · exact Or.inr ⟨r, Or.inl rfl, h⟩
        · exact Or.inr ⟨rel, Or.inr hm, hb⟩
      · rintro (h | ⟨rel, hm | hm, hb⟩)
        · exact Or.inl (Or.inl h)
        · exact Or.inl (Or.inr (hm ▸ hb))
        · exact Or.inr ⟨rel, hm, hb⟩
  unfold collectRefTags
  rw [fold]
  simp

/-- Characters with equal code points are equal. -/
theorem char_toNat_inj {a b : Char} (h : a.toNat = b.toNat) : a = b := by
  cases a with
  | mk av ap =>
    cases b with
    | mk bv bp =>
      have : av = bv := UInt32.toNat.inj h
      subst this
      rfl

/-- Reflexivity of the string order. -/
theorem leC_refl : ∀ l : List Char, leC l l = true := by
  intro l
  induction l with
  | nil => rfl
  | cons a tl ih => simp [leC, ih]

/-- Transitivity of the string order. -/
theorem leC_trans : ∀ a b c : List Char, leC a b = true → leC b c = true → leC a c = true := by
  intro a
  induction a with
  | nil => intro b c _ _; rfl
  | cons x xs ih =>
    intro b c hab hbc
    cases b with
    | nil => simp [leC] at hab
    | cons y ys =>
      cases c with
      | nil => simp [leC] at hbc
      | cons z zs =>
        by_cases hxy : x = y
        · subst hxy
          rw [leC, if_pos rfl] at hab
          by_cases hyz : x = z
          · subst hyz
            rw [leC, if_pos rfl] at hbc ⊢
            exact ih ys zs hab hbc
          · rw [leC, if_neg hyz] at hbc ⊢
            exact hbc
        · rw [leC, if_neg hxy] at hab
          have hxy2 : x.toNat < y.toNat := of_decide_eq_true hab
          by_cases hyz : y = z
          · subst hyz
            rw [leC, if_neg hxy]
            exact hab
          · rw [leC, if_neg hyz] at hbc
            have hyz2 : y.toNat < z.toNat := of_decide_eq_true hbc
            have hxz2 : x.toNat < z.toNat := Nat.lt_trans hxy2 hyz2
            have hxz : x ≠ z := by
              intro he
              subst he
              omega
            rw [leC, if_neg hxz]
            exact decide_eq_true hxz2

/-- Totality of the string order. -/
theorem leC_total : ∀ a b : List Char, leC a b = true ∨ leC b a = true := by
  intro a
  induction a with
  | nil => intro b; exact Or.inl rfl
  | cons x xs ih =>
    intro b
    cases b with
    | nil => exact Or.inr rfl
    | cons y ys =>
      by_cases hxy : x = y
      · subst hxy
        rcases ih ys with h | h
        · exact Or.inl (by rw [leC, if_pos rfl]; exact h)
        · exact Or.inr (by rw [leC, if_pos rfl]; exact h)
      · have hne : x.toNat ≠ y.toNat := fun he => hxy (char_toNat_inj he)
        rcases Nat.lt_or_ge x.toNat y.toNat with h | h
        · exact Or.inl (by rw [leC, if_neg hxy]; exact decide_eq_true h)
        · have h2 : y.toNat < x.toNat := Nat.lt_of_le_of_ne h (Ne.symm hne)
          exact Or.inr (by rw [leC, if_neg (Ne.symm hxy)]; exact decide_eq_true h2)

/-- Antisymmetry of the string order. -/
theorem leC_antisymm : ∀ a b : List Char, leC a b = true → leC b a = true → a = b := by
  intro a
  induction a with
  | nil =>
    intro b _ hba
    cases b with
    | nil => rfl
    | cons y ys => simp [leC] at hba
  | cons x xs ih =>
    intro b hab hba
    cases b with
    | nil => simp [leC] at hab
    | cons y ys =>
      by_cases hxy : x = y
      · subst hxy
        rw [leC, if_pos rfl] at hab hba
        rw [ih ys hab hba]
      · rw [leC, if_neg hxy] at hab
        rw [leC, if_neg (Ne.symm hxy)] at hba
        have h1 : x.toNat < y.toNat := of_decide_eq_true hab
        have h2 : y.toNat < x.toNat := of_decide_eq_true hba
        omega

/-- The tag order projects to the string order on relative paths. -/
theorem tagLe_relLe {a b : ParsedTag} (h : tagLe a b = true) :
    leC a.relPath.data b.relPath.data = true := by
  unfold tagLe at h
  by_cases hr : a.relPath = b.relPath
  · rw [hr]; exact leC_refl _
  · rwa [if_neg hr] at h

/-- Transitivity of the tag order. -/
theorem tagLeP_trans : ∀ a b c : ParsedTag, tagLeP a b → tagLeP b c → tagLeP a c := by
  intro a b c hab hbc
  unfold tagLeP tagLe at hab hbc ⊢
  by_cases hab1 : a.relPath = b.relPath
  · by_cases hbc1 : b.relPath = c.relPath
    · rw [if_pos hab1] at hab
      rw [if_pos hbc1] at hbc
      rw [if_pos (hab1.trans hbc1)]
      have n1 := of_decide_eq_true hab
      have n2 := of_decide_eq_true hbc
      exact decide_eq_true (Nat.le_trans n1 n2)
    · rw [if_pos hab1] at hab
      rw [if_neg hbc1] at hbc
      have hac1 : a.relPath ≠ c.relPath := fun he => hbc1 (hab1 ▸ he)
      rw [if_neg hac1, hab1]
      exact hbc
  · rw [if_neg hab1] at hab
    by_cases hbc1 : b.relPath = c.relPath
    · have hac1 : a.relPath ≠ c.relPath := fun he => hab1 (he.trans hbc1.symm)
      rw [if_neg hac1, ← hbc1]
      exact hab
    · rw [if_neg hbc1] at hbc
      have hac : leC a.relPath.data c.relPath.data = true := leC_trans _ _ _ hab hbc
      by_cases hac1 : a.relPath = c.relPath
      · exfalso
        have hca : leC c.relPath.data b.relPath.data = true := hac1 ▸ hab
        exact hbc1 (String.ext (leC_antisymm _ _ hbc hca))
      · rw [if_neg hac1]
        exact hac

/-- Totality of the tag order. -/
theorem tagLeP_total : ∀ a b : ParsedTag, tagLeP a b ∨ tagLeP b a := by
  intro a b
  unfold tagLeP tagLe
  by_cases h : a.relPath = b.relPath
  · rw [if_pos h, if_pos h.symm]
    rcases Nat.le_total a.startLine b.startLine with h1 | h1
    · exact Or.inl (decide_eq_true h1)
    · exact Or.inr (decide_eq_true h1)
  · rw [if_neg h, if_neg (Ne.symm h)]
    exact leC_total _ _

/-- Every element of a consecutive-dedup is an element of the list. -/
theorem mem_dedupConsec {α : Type} [DecidableEq α] :
    ∀ (l : List α) (x : α), x ∈ dedupConsec l → x ∈ l := by
  intro l
  induction l with
  | nil => intro x h; exact absurd h (by simp [dedupConsec])
  | cons a tl ih =>
    intro x h
    cases tl with
    | nil => exact h
    | cons b rest =>
      rw [dedupConsec] at h
      by_cases hab : a = b
      · rw [if_pos hab] at h
        exact List.mem_cons_of_mem _ (ih x h)
      · rw [if_neg hab] at h
        rcases List.mem_cons.mp h with h1 | h1
        · exact h1 ▸ List.mem_cons_self _ _
        · exact List.mem_cons_of_mem _ (ih x h1)

/-- Consecutive dedup of a sorted list of strings is strictly
ascending (hence duplicate-free). -/
theorem dedupConsec_sorted_strict :
    ∀ l : List String,
      l.Pairwise (fun r1 r2 => leC r1.data r2.data = true) →
      (dedupConsec l).Pairwise strLt := by
  intro l
  induction l with
  | nil => intro _; simp [dedupConsec]
  | cons a tl ih =>
    intro h
    cases tl with
    | nil => simp [dedupConsec]
    | cons b rest =>
      rw [List.pairwise_cons] at h
      obtain ⟨ha, htail⟩ := h
      rw [dedupConsec]
      by_cases hab : a = b
      · rw [if_pos hab]
        exact ih htail
      · rw [if_neg hab]
        rw [List.pairwise_cons]
        refine ⟨?_, ih htail⟩
        intro x hx
        have hxmem : x ∈ b :: rest := mem_dedupConsec _ x hx
        have hlax : leC a.data x.data = true := ha x hxmem
        refine ⟨hlax, ?_⟩
        rcases List.mem_cons.mp hxmem with h1 | h1
        · exact h1 ▸ hab
        · intro he
          rw [List.pairwise_cons] at htail
          have hbx : leC b.data x.data = true := htail.1 x h1
          have hba : leC b.data a.data = true := he ▸ hbx
          have hlab : leC a.data b.data = true := ha b (List.mem_cons_self _ _)
          exact hab (String.ext (leC_antisymm _ _ hlab hba))

/-- Loop step on a tag of the current file: only `lois` grows. -/
theorem ttStep_same (fs : FileSystem) (ue : Bool) (st : LoopSt) (tag : ParsedTag)
    (h : tag.relPath = st.curRel) :
    ttStep fs ue st tag = { st with lois := st.lois ++ loisOf ue tag } := by
  simp [ttStep, h]

/-- Loop step at a file boundary with pending lines of interest: the
previous group is rendered and flushed. -/
theorem ttStep_boundary_render (fs : FileSystem) (ue : Bool) (st : LoopSt)
    (tag : ParsedTag) (h : tag.relPath ≠ st.curRel) (hl : st.lois ≠ []) :
    ttStep fs ue st tag =
      { curRel := tag.relPath
        curAbs := tag.absPath
        lois := loisOf ue tag
        out := st.out ++ st.curRel ++ ":\n" ++
          (render_tree fs st.nav st.curAbs st.curRel st.lois).text
        nav := (render_tree fs st.nav st.curAbs st.curRel st.lois).nav
        reads := st.reads + (render_tree fs st.nav st.curAbs st.curRel st.lois).reads
        calls := st.calls ++ [⟨st.curAbs, st.curRel, st.lois⟩]
        files := st.files ++ [st.curRel] } := by
  simp [ttStep, h, hl]

/-- Loop step at a file boundary with no pending lines of interest and
a nonempty previous file: only its path header is emitted. -/
theorem ttStep_boundary_norender (fs : FileSystem) (ue : Bool) (st : LoopSt)
    (tag : ParsedTag) (h : tag.relPath ≠ st.curRel) (hl : st.lois = [])
    (hc : st.curRel ≠ "") :
    ttStep fs ue st tag =
      { st with
        curRel := tag.relPath
        curAbs := tag.absPath
        lois := loisOf ue tag
        out := st.out ++ "\n" ++ st.curRel ++ ":\n"
        files := st.files ++ [st.curRel] } := by
  simp [ttStep, h, hl, hc]

/-- First loop step from the initial state: nothing is emitted. -/
theorem ttStep_initial (fs : FileSystem) (ue : Bool) (st : LoopSt) (tag : ParsedTag)
    (h : tag.relPath ≠ st.curRel) (hl : st.lois = []) (hc : st.curRel = "") :
    ttStep fs ue st tag =
      { st with
        curRel := tag.relPath
        curAbs := tag.absPath
        lois := loisOf ue tag } := by
  have h2 : tag.relPath ≠ "" := hc ▸ h
  simp [ttStep, h, h2, hl, hc]

/-- The ghost logs of the grouping loop over `tags + [dummy_tag]` are
computed by `ghostSpec`. -/
theorem ttLoop_ghost (fs : FileSystem) (ue : Bool) :
    ∀ (ts : List ParsedTag) (st : LoopSt),
      (ttLoop fs ue (ts ++ [dummyTag]) st).calls
          = st.calls ++ (ghostSpec ue st.curAbs st.curRel st.lois ts).1 ∧
      (ttLoop fs ue (ts ++ [dummyTag]) st).files
          = st.files ++ (ghostSpec ue st.curAbs st.curRel st.lois ts).2 := by
  intro ts
  induction ts with
  | nil =>
    intro st
    have hloop : ttLoop fs ue ([] ++ [dummyTag]) st = ttStep fs ue st dummyTag := rfl
    by_cases hc : st.curRel = ""
    · have heq : ttStep fs ue st dummyTag
          = { st with lois := st.lois ++ loisOf ue dummyTag } :=
        ttStep_same fs ue st dummyTag (by simp [dummyTag, hc])
      rw [hloop, heq]
      simp [ghostSpec, hc]
    · have hb : dummyTag.relPath ≠ st.curRel := fun he => hc (by simpa [dummyTag] using he.symm)
      by_cases hl : st.lois = []
      · rw [hloop, ttStep_boundary_norender fs ue st dummyTag hb hl hc]
        simp [ghostSpec, hc, hl]
      · rw [hloop, ttStep_boundary_render fs ue st dummyTag hb hl]
        simp [ghostSpec, hc, hl]
  | cons t ts ih =>
    intro st
    have hloop : ttLoop fs ue ((t :: ts) ++ [dummyTag]) st
        = ttLoop fs ue (ts ++ [dummyTag]) (ttStep fs ue st t) := rfl
    by_cases hb : t.relPath = st.curRel
    · rw [hloop, ttStep_same fs ue st t hb]
      obtain ⟨h1, h2⟩ := ih ({ st with lois := st.lois ++ loisOf ue t })
      rw [h1, h2, ghostSpec]
      rw [if_neg (by simpa using hb)]
      exact ⟨rfl, rfl⟩
    · have hb2 : t.relPath ≠ st.curRel := hb
      by_cases hl : st.lois = []
      · by_cases hc : st.curRel = ""
        · rw [hloop, ttStep_initial fs ue st t hb2 hl hc]
          obtain ⟨h1, h2⟩ := ih ({ st with curRel := t.relPath, curAbs := t.absPath, lois := loisOf ue t })
          rw [h1, h2, ghostSpec]
          rw [if_pos hb2]
          simp [hl, hc]
        · rw [hloop, ttStep_boundary_norender fs ue st t hb2 hl hc]
          obtain ⟨h1, h2⟩ := ih ({ st with curRel := t.relPath, curAbs := t.absPath, lois := loisOf ue t, out := st.out ++ "\n" ++ st.curRel ++ ":\n", files := st.files ++ [st.curRel] })
          rw [h1, h2, ghostSpec]
          rw [if_pos hb2]
          simp [hl, hc]
      · rw [hloop, ttStep_boundary_render fs ue st t hb2 hl]
        obtain ⟨h1, h2⟩ := ih ({ curRel := t.relPath, curAbs := t.absPath, lois := loisOf ue t, out := st.out ++ st.curRel ++ ":\n" ++ (render_tree fs st.nav st.curAbs st.curRel st.lois).text, nav := (render_tree fs st.nav st.curAbs st.curRel st.lois).nav, reads := st.reads + (render_tree fs st.nav st.curAbs st.curRel st.lois).reads, calls := st.calls ++ [⟨st.curAbs, st.curRel, st.lois⟩], files := st.files ++ [st.curRel] })
        rw [h1, h2, ghostSpec]
        rw [if_pos hb2]
        simp [hl]

/-- Membership in an inclusive line range. -/
theorem mem_rangeIncl (a b n : Nat) : n ∈ rangeIncl a b ↔ a ≤ n ∧ n ≤ b := by
  unfold rangeIncl
  rw [List.mem_range']
  constructor
  · rintro ⟨i, hi, rfl⟩
    omega
  · rintro ⟨h1, h2⟩
    exact ⟨n - a, by omega, by omega⟩

/-- Membership in the concatenated lines of interest of a tag run. -/
theorem mem_loisConcat (ue : Bool) :
    ∀ (ts : List ParsedTag) (n : Nat),
      n ∈ loisConcat ue ts ↔ ∃ t, t ∈ ts ∧ n ∈ loisOf ue t := by
  intro ts
  induction ts with
  | nil => intro n; simp [loisConcat]
  | cons t ts ih =>
    intro n
    rw [loisConcat, List.mem_append, ih]
    constructor
    · rintro (h | ⟨u, hu, hn⟩)
      · exact ⟨t, List.mem_cons_self _ _, h⟩
      · exact ⟨u, List.mem_cons_of_mem _ hu, hn⟩
    · rintro ⟨u, hu, hn⟩
      rcases List.mem_cons.mp hu with h | h
      · exact Or.inl (h ▸ hn)
      · exact Or.inr ⟨u, h, hn⟩

/-- File sections computed by `ghostSpec` from a running group:
consecutive-dedup of the relative paths, headed by the current file. -/
theorem ghostSpec_files (ue : Bool) :
    ∀ (ts : List ParsedTag) (curAbs curRel : String) (lois : List Nat),
      curRel ≠ "" → (∀ t ∈ ts, t.relPath ≠ "") →
      (ghostSpec ue curAbs curRel lois ts).2
        = dedupConsec (curRel :: ts.map ParsedTag.relPath) := by
  intro ts
  induction ts with
  | nil =>
    intro curAbs curRel lois hc _
    simp [ghostSpec, dedupConsec, hc]
  | cons t ts ih =>
    intro curAbs curRel lois hc hall
    by_cases hb : t.relPath = curRel
    · rw [ghostSpec, if_neg (by simpa using hb)]
      rw [ih curAbs curRel (lois ++ loisOf ue t) hc (fun u hu => hall u (List.mem_cons_of_mem _ hu))]
      show _ = dedupConsec (curRel :: t.relPath :: ts.map ParsedTag.relPath)
      rw [dedupConsec, if_pos hb.symm, hb]
    · rw [ghostSpec, if_pos (by simpa using hb)]
      have ht : t.relPath ≠ "" := hall t (List.mem_cons_self _ _)
      rw [show ((if lois ≠ [] ∨ curRel ≠ "" then [curRel] else []) = [curRel]) from if_pos (Or.inr hc)]
      show [curRel] ++ (ghostSpec ue t.absPath t.relPath (loisOf ue t) ts).2 = _
      rw [ih t.absPath t.relPath (loisOf ue t) ht (fun u hu => hall u (List.mem_cons_of_mem _ hu))]
      show _ = dedupConsec (curRel :: t.relPath :: ts.map ParsedTag.relPath)
      rw [dedupConsec, if_neg (fun he => hb he.symm)]
      rfl

/-- File sections computed by `ghostSpec` from the initial state. -/
theorem ghostSpec_files_top (ue : Bool) :
    ∀ (ts : List ParsedTag) (a : String),
      (∀ t ∈ ts, t.relPath ≠ "") →
      (ghostSpec ue a "" [] ts).2 = dedupConsec (ts.map ParsedTag.relPath) := by
  intro ts a hall
  cases ts with
  | nil => simp [ghostSpec, dedupConsec]
  | cons t ts =>
    have ht : t.relPath ≠ "" := hall t (List.mem_cons_self _ _)
    rw [ghostSpec, if_pos (by simpa using ht)]
    rw [show ((if ([] : List Nat) ≠ [] ∨ ("" : String) ≠ "" then [""] else []) = ([] : List String)) from if_neg (by simp)]
    show (ghostSpec ue t.absPath t.relPath (loisOf ue t) ts).2 = _
    rw [ghostSpec_files ue ts t.absPath t.relPath (loisOf ue t) ht (fun u hu => hall u (List.mem_cons_of_mem _ hu))]
    rfl

/-- Render calls computed by `ghostSpec` from a running group: each call
has nonempty lines of interest, and those are exactly the concatenated
ranges of the tags of that call's file (with the pending `lois` for the
current file). -/
theorem ghostSpec_calls (ue : Bool) :
    ∀ (ts : List ParsedTag) (curAbs curRel : String) (lois : List Nat),
      List.Pairwise tagLeP ts →
      (∀ t ∈ ts, t.relPath = curRel ∨ strLt curRel t.relPath) →
      ∀ c ∈ (ghostSpec ue curAbs curRel lois ts).1,
        c.lois ≠ [] ∧
        ((c.relFile = curRel ∧
            c.lois = lois ++ loisConcat ue (ts.filter (fun t => t.relPath = curRel))) ∨
         (c.relFile ≠ curRel ∧
            c.lois = loisConcat ue (ts.filter (fun t => t.relPath = c.relFile)))) := by
  intro ts
  induction ts with
  | nil =>
    intro curAbs curRel lois _ _ c hc
    rw [ghostSpec] at hc
    by_cases h : curRel ≠ "" ∧ lois ≠ []
    · rw [if_pos h] at hc
      rcases List.mem_singleton.mp hc with rfl
      refine ⟨h.2, Or.inl ⟨rfl, ?_⟩⟩
      simp [loisConcat]
    · rw [if_neg h] at hc
      exact absurd hc (List.not_mem_nil c)
  | cons t ts ih =>
    intro curAbs curRel lois hsort hahead c hc
    rw [List.pairwise_cons] at hsort
    obtain ⟨hhead, htail⟩ := hsort
    by_cases hb : t.relPath = curRel
    · rw [ghostSpec, if_neg (by simpa using hb)] at hc
      have hahead2 : ∀ u ∈ ts, u.relPath = curRel ∨ strLt curRel u.relPath :=
        fun u hu => hahead u (List.mem_cons_of_mem _ hu)
      obtain ⟨hne, hdisj⟩ := ih curAbs curRel (lois ++ loisOf ue t) htail hahead2 c hc
      refine ⟨hne, ?_⟩
      rcases hdisj with ⟨hrel, hlo⟩ | ⟨hrel, hlo⟩
      · refine Or.inl ⟨hrel, ?_⟩
        rw [hlo]
        rw [List.filter_cons_of_pos (by simpa using hb), loisConcat, List.append_assoc]
      · refine Or.inr ⟨hrel, ?_⟩
        rw [hlo]
        rw [List.filter_cons_of_neg (by simp [hb]; exact fun he => hrel (he ▸ hb ▸ rfl))]
    · have hlt : strLt curRel t.relPath := by
        rcases hahead t (List.mem_cons_self _ _) with h | h
        · exact absurd h hb
        · exact h
      have hnone : ∀ u ∈ ts, u.relPath ≠ curRel := by
        intro u hu he
        have h1 : leC t.relPath.data u.relPath.data = true := tagLe_relLe (hhead u hu)
        have h2 : leC t.relPath.data curRel.data = true := he ▸ h1
        exact hb (String.ext (leC_antisymm _ _ h2 hlt.1))
      have hahead2 : ∀ u ∈ ts, u.relPath = t.relPath ∨ strLt t.relPath u.relPath := by
        intro u hu
        have h1 : leC t.relPath.data u.relPath.data = true := tagLe_relLe (hhead u hu)
        by_cases he : t.relPath = u.relPath
        · exact Or.inl he.symm
        · exact Or.inr ⟨h1, he⟩
      have hfilcur : (t :: ts).filter (fun u => u.relPath = curRel) = [] := by
        rw [List.filter_cons_of_neg (by simpa using hb)]
        rw [List.filter_eq_nil]
        intro u hu
        simpa using hnone u hu
      rw [ghostSpec, if_pos (by simpa using hb)] at hc
      rcases List.mem_append.mp hc with hc1 | hc1
      · by_cases hl : lois ≠ []
        · rw [if_pos hl] at hc1
          rcases List.mem_singleton.mp hc1 with rfl
          refine ⟨hl, Or.inl ⟨rfl, ?_⟩⟩
          rw [hfilcur]
          simp [loisConcat]
        · rw [if_neg hl] at hc1
          exact absurd hc1 (List.not_mem_nil c)
      · obtain ⟨hne, hdisj⟩ := ih t.absPath t.relPath (loisOf ue t) htail hahead2 c hc1
        refine ⟨hne, ?_⟩
        rcases hdisj with ⟨hrel, hlo⟩ | ⟨hrel, hlo⟩
        · refine Or.inr ⟨hrel ▸ hb, ?_⟩
          rw [hlo, hrel]
          rw [List.filter_cons_of_pos (by simp), loisConcat]
        · have hcnc : c.relFile ≠ curRel := by
            intro he
            rw [hlo] at hne
            apply hne
            rw [he]
            rw [show (ts.filter (fun u => u.relPath = curRel)) = [] from ?_]
            · simp [loisConcat]
            · rw [List.filter_eq_nil]
              intro u hu
              simpa using hnone u hu
          refine Or.inr ⟨hcnc, ?_⟩
          rw [hlo]
          rw [List.filter_cons_of_neg (by simp; exact fun he => hrel (he ▸ rfl))]

/-- Render calls computed by `ghostSpec` from the initial state, for a
sorted tag list with nonempty relative paths. -/
theorem ghostSpec_calls_top (ue : Bool) (ts : List ParsedTag) (a : String)
    (hsort : List.Pairwise tagLeP ts) (hall : ∀ t ∈ ts, t.relPath ≠ "") :
    ∀ c ∈ (ghostSpec ue a "" [] ts).1,
      c.lois ≠ [] ∧
      c.lois = loisConcat ue (ts.filter (fun t => t.relPath = c.relFile)) := by
  intro c hc
  have hahead : ∀ t ∈ ts, t.relPath = "" ∨ strLt "" t.relPath := by
    intro t ht
    exact Or.inr ⟨rfl, fun he => hall t ht he.symm⟩
  obtain ⟨hne, hdisj⟩ := ghostSpec_calls ue ts a "" [] hsort hahead c hc
  refine ⟨hne, ?_⟩
  rcases hdisj with ⟨hrel, hlo⟩ | ⟨hrel, hlo⟩
  · exfalso
    apply hne
    rw [hlo]
    rw [show (ts.filter (fun t => t.relPath = "")) = [] from ?_]
    · simp [loisConcat]
    · rw [List.filter_eq_nil]
      intro u hu
      simpa using hall u hu
  · exact hlo

/-- Associativity of string concatenation. -/
theorem strAppend_assoc (a b c : String) : (a ++ b) ++ c = a ++ (b ++ c) := by
  cases a with
  | mk ad =>
    cases b with
    | mk bd =>
      cases c with
      | mk cd =>
        show String.mk ((ad ++ bd) ++ cd) = String.mk (ad ++ (bd ++ cd))
        rw [List.append_assoc]

/-- Concatenating the empty string on the right. -/
theorem strAppend_empty (a : String) : a ++ "" = a := by
  cases a with
  | mk ad =>
    show String.mk (ad ++ []) = String.mk ad
    rw [List.append_nil]

/-- A rendered-tree cache hit returns the cached text, mutates nothing
and reads nothing. -/
theorem render_tree_hit (fs : FileSystem) (nav : NavState) (a r : String)
    (l : List Nat) (res : String)
    (h : alookup (renderKey fs a r l) nav.renderedCache = some res) :
    render_tree fs nav a r l = ⟨res, nav, 0⟩ := by
  simp only [render_tree, h]

/-- After `render_tree`, its key maps to its result text. -/
theorem render_tree_post (fs : FileSystem) (nav : NavState) (a r : String)
    (l : List Nat) :
    alookup (renderKey fs a r l) (render_tree fs nav a r l).nav.renderedCache
      = some (render_tree fs nav a r l).text := by
  cases h : alookup (renderKey fs a r l) nav.renderedCache with
  | some res =>
    simp only [render_tree, h]
  | none =>
    cases h2 : alookup r nav.fileCtxCache with
    | some e =>
      by_cases h3 : e.mtime < fs.mtimeOf a
      · simp only [render_tree, h, h2, if_pos h3]
        exact alookup_alinsert_self _ _ _
      · simp only [render_tree, h, h2, if_neg h3]
        exact alookup_alinsert_self _ _ _
    | none =>
      simp only [render_tree, h, h2]
      exact alookup_alinsert_self _ _ _

/-- Rendering preserves existing rendered-tree cache entries. -/
theorem render_tree_mono (fs : FileSystem) (nav : NavState) (a r : String)
    (l : List Nat) (k : String × List Nat × Nat) (v : String)
    (h : alookup k nav.renderedCache = some v) :
    alookup k (render_tree fs nav a r l).nav.renderedCache = some v := by
  cases hm : alookup (renderKey fs a r l) nav.renderedCache with
  | some res =>
    simp only [render_tree, hm]
    exact h
  | none =>
    have hk : k ≠ renderKey fs a r l := by
      intro he
      rw [he, hm] at h
      exact Option.noConfusion h
    cases h2 : alookup r nav.fileCtxCache with
    | some e =>
      by_cases h3 : e.mtime < fs.mtimeOf a
      · simp only [render_tree, hm, h2, if_pos h3]
        rw [alookup_alinsert_ne _ hk]
        exact h
      · simp only [render_tree, hm, h2, if_neg h3]
        rw [alookup_alinsert_ne _ hk]
        exact h
    | none =>
      simp only [render_tree, hm, h2]
      rw [alookup_alinsert_ne _ hk]
      exact h

/-- The grouping loop preserves existing rendered-tree cache entries. -/
theorem ttLoop_mono (fs : FileSystem) (ue : Bool) :
    ∀ (ts : List ParsedTag) (st : LoopSt) (k : String × List Nat × Nat) (v : String),
      alookup k st.nav.renderedCache = some v →
      alookup k (ttLoop fs ue ts st).nav.renderedCache = some v := by
  intro ts
  induction ts with
  | nil => intro st k v h; exact h
  | cons t ts ih =>
    intro st k v h
    show alookup k (ttLoop fs ue ts (ttStep fs ue st t)).nav.renderedCache = some v
    apply ih
    by_cases hb : t.relPath = st.curRel
    · rw [ttStep_same fs ue st t hb]
      exact h
    · by_cases hl : st.lois = []
      · by_cases hc : st.curRel = ""
        · rw [ttStep_initial fs ue st t hb hl hc]
          exact h
        · rw [ttStep_boundary_norender fs ue st t hb hl hc]
          exact h
      · rw [ttStep_boundary_render fs ue st t hb hl]
        exact render_tree_mono fs st.nav st.curAbs st.curRel st.lois k v h

/-- After the grouping loop, every logged render call's key is present
in the rendered-tree cache. -/
theorem ttLoop_keys (fs : FileSystem) (ue : Bool) :
    ∀ (ts : List ParsedTag) (st : LoopSt),
      (∀ c ∈ st.calls, ∃ res,
        alookup (renderKey fs c.absFile c.relFile c.lois) st.nav.renderedCache = some res) →
      ∀ c ∈ (ttLoop fs ue ts st).calls, ∃ res,
        alookup (renderKey fs c.absFile c.relFile c.lois)
          (ttLoop fs ue ts st).nav.renderedCache = some res := by
  intro ts
  induction ts with
  | nil => intro st h; exact h
  | cons t ts ih =>
    intro st h
    show ∀ c ∈ (ttLoop fs ue ts (ttStep fs ue st t)).calls, _
    apply ih
    by_cases hb : t.relPath = st.curRel
    · rw [ttStep_same fs ue st t hb]
      exact h
    · by_cases hl : st.lois = []
      · by_cases hc : st.curRel = ""
        · rw [ttStep_initial fs ue st t hb hl hc]
          exact h
        · rw [ttStep_boundary_norender fs ue st t hb hl hc]
          exact h
      · rw [ttStep_boundary_render fs ue st t hb hl]
        intro c hcm
        rcases List.mem_append.mp hcm with hcm | hcm
        · obtain ⟨res, hres⟩ := h c hcm
          exact ⟨res, render_tree_mono fs st.nav st.curAbs st.curRel st.lois _ res hres⟩
        · rcases List.mem_singleton.mp hcm with rfl
          exact ⟨(render_tree fs st.nav st.curAbs st.curRel st.lois).text,
            render_tree_post fs st.nav st.curAbs st.curRel st.lois⟩

/-- Replay: running the grouping loop again, starting from the cache
state the first run produced, renders every group from the cache: the
cache state does not change, no reads happen, and the same text chunk is
appended. -/
theorem ttLoop_replay (fs : FileSystem) (ue : Bool) :
    ∀ (ts : List ParsedTag) (st1 st2 : LoopSt),
      st2.curRel = st1.curRel → st2.curAbs = st1.curAbs → st2.lois = st1.lois →
      st2.nav = (ttLoop fs ue ts st1).nav →
      (ttLoop fs ue ts st2).nav = st2.nav ∧
      (ttLoop fs ue ts st2).reads = st2.reads ∧
      ∃ d : String, (ttLoop fs ue ts st1).out = st1.out ++ d ∧
        (ttLoop fs ue ts st2).out = st2.out ++ d := by
  intro ts
  induction ts with
  | nil =>
    intro st1 st2 _ _ _ _
    exact ⟨rfl, rfl, "", (strAppend_empty _).symm, (strAppend_empty _).symm⟩
  | cons t ts ih =>
    intro st1 st2 hrel habs hlois hnav
    have hloop1 : ttLoop fs ue (t :: ts) st1 = ttLoop fs ue ts (ttStep fs ue st1 t) := rfl
    have hloop2 : ttLoop fs ue (t :: ts) st2 = ttLoop fs ue ts (ttStep fs ue st2 t) := rfl
    by_cases hb : t.relPath = st1.curRel
    · have hb2 : t.relPath = st2.curRel := hrel ▸ hb
      rw [hloop1, hloop2, ttStep_same fs ue st1 t hb, ttStep_same fs ue st2 t hb2]
      exact ih _ _ hrel habs (by simp [hlois]) (by rw [hloop1, ttStep_same fs ue st1 t hb] at hnav; exact hnav)
    · have hb2 : t.relPath ≠ st2.curRel := hrel ▸ hb
      by_cases hl : st1.lois = []
      · have hl2 : st2.lois = [] := hlois ▸ hl
        by_cases hc : st1.curRel = ""
        · have hc2 : st2.curRel = "" := hrel ▸ hc
          rw [hloop1, hloop2, ttStep_initial fs ue st1 t hb hl hc,
            ttStep_initial fs ue st2 t hb2 hl2 hc2]
          exact ih _ _ rfl rfl rfl (by rw [hloop1, ttStep_initial fs ue st1 t hb hl hc] at hnav; exact hnav)
        · have hc2 : st2.curRel ≠ "" := hrel ▸ hc
          rw [hloop1, hloop2, ttStep_boundary_norender fs ue st1 t hb hl hc,
            ttStep_boundary_norender fs ue st2 t hb2 hl2 hc2]
          obtain ⟨g1, g2, d, g3, g4⟩ := ih
            ({ st1 with curRel := t.relPath, curAbs := t.absPath, lois := loisOf ue t, out := st1.out ++ "\n" ++ st1.curRel ++ ":\n", files := st1.files ++ [st1.curRel] })
            ({ st2 with curRel := t.relPath, curAbs := t.absPath, lois := loisOf ue t, out := st2.out ++ "\n" ++ st2.curRel ++ ":\n", files := st2.files ++ [st2.curRel] })
            rfl rfl rfl
            (by rw [hloop1, ttStep_boundary_norender fs ue st1 t hb hl hc] at hnav; exact hnav)
          refine ⟨g1, g2, ("\n" ++ st1.curRel ++ ":\n") ++ d, ?_, ?_⟩
          · rw [g3]
            simp only [strAppend_assoc]
          · rw [g4, hrel]
            simp only [strAppend_assoc]
      · have hl2 : st2.lois ≠ [] := hlois ▸ hl
        have hr1 := render_tree_post fs st1.nav st1.curAbs st1.curRel st1.lois
        have hkey : alookup (renderKey fs st1.curAbs st1.curRel st1.lois)
            st2.nav.renderedCache
              = some (render_tree fs st1.nav st1.curAbs st1.curRel st1.lois).text := by
          rw [hnav, hloop1, ttStep_boundary_render fs ue st1 t hb hl]
          exact ttLoop_mono fs ue ts _ _ _ hr1
        have hr2 : render_tree fs st2.nav st2.curAbs st2.curRel st2.lois
            = ⟨(render_tree fs st1.nav st1.curAbs st1.curRel st1.lois).text, st2.nav, 0⟩ := by
          rw [habs, hrel, hlois]
          exact render_tree_hit fs st2.nav st1.curAbs st1.curRel st1.lois _ hkey
        rw [hloop1, hloop2, ttStep_boundary_render fs ue st1 t hb hl,
          ttStep_boundary_render fs ue st2 t hb2 hl2, hr2]
        obtain ⟨g1, g2, d, g3, g4⟩ := ih
          ({ curRel := t.relPath, curAbs := t.absPath, lois := loisOf ue t, out := st1.out ++ st1.curRel ++ ":\n" ++ (render_tree fs st1.nav st1.curAbs st1.curRel st1.lois).text, nav := (render_tree fs st1.nav st1.curAbs st1.curRel st1.lois).nav, reads := st1.reads + (render_tree fs st1.nav st1.curAbs st1.curRel st1.lois).reads, calls := st1.calls ++ [⟨st1.curAbs, st1.curRel, st1.lois⟩], files := st1.files ++ [st1.curRel] })
          ({ curRel := t.relPath, curAbs := t.absPath, lois := loisOf ue t, out := st2.out ++ st2.curRel ++ ":\n" ++ (render_tree fs st1.nav st1.curAbs st1.curRel st1.lois).text, nav := st2.nav, reads := st2.reads + 0, calls := st2.calls ++ [⟨st2.curAbs, st2.curRel, st2.lois⟩], files := st2.files ++ [st2.curRel] })
          rfl rfl rfl
          (by rw [hnav, hloop1, ttStep_boundary_render fs ue st1 t hb hl])
        refine ⟨g1, by simpa using g2, (st1.curRel ++ ":\n" ++ (render_tree fs st1.nav st1.curAbs st1.curRel st1.lois).text) ++ d, ?_, ?_⟩
        · rw [g3]
          simp only [strAppend_assoc]
        · rw [g4, hrel]
          simp only [strAppend_assoc]

/-- Newline-splitting never yields an empty piece list. -/
theorem splitNl_ne_nil : ∀ s : List Char, splitNl s ≠ [] := by
  intro s
  induction s with
  | nil => simp [splitNl]
  | cons c rest ih =>
    rw [splitNl]
    by_cases hc : c = '\n'
    · simp [hc]
    · rw [if_neg hc]
      cases h : splitNl rest with
      | nil => simp
      | cons l ls => simp

/-- Pieces produced by newline-splitting contain no newline. -/
theorem splitNl_no_nl : ∀ (s : List Char) (l : List Char), l ∈ splitNl s → '\n' ∉ l := by
  intro s
  induction s with
  | nil =>
    intro l hl
    rw [splitNl] at hl
    rcases List.mem_singleton.mp hl with rfl
    simp
  | cons c rest ih =>
    intro l hl
    rw [splitNl] at hl
    by_cases hc : c = '\n'
    · rw [if_pos hc] at hl
      rcases List.mem_cons.mp hl with h | h
      · subst h; simp
      · exact ih l h
    · rw [if_neg hc] at hl
      cases h : splitNl rest with
      | nil => exact absurd h (splitNl_ne_nil rest)
      | cons p ps =>
        rw [h] at hl
        rcases List.mem_cons.mp hl with h1 | h1
        · subst h1
          intro hmem
          rcases List.mem_cons.mp hmem with h2 | h2
          · exact hc h2.symm
          · exact ih p (h ▸ List.mem_cons_self _ _) h2
        · exact ih l (h ▸ List.mem_cons_of_mem _ h1)

/-- Newline-splitting of a newline-free list is the singleton piece. -/
theorem splitNl_nlFree : ∀ p : List Char, '\n' ∉ p → splitNl p = [p] := by
  intro p
  induction p with
  | nil => intro _; rfl
  | cons c rest ih =>
    intro h
    have hc : c ≠ '\n' := fun he => h (he ▸ List.mem_cons_self _ _)
    have hrest : '\n' ∉ rest := fun hm => h (List.mem_cons_of_mem _ hm)
    rw [splitNl, if_neg hc, ih hrest]

/-- Newline-splitting of a newline-free piece glued before a newline. -/
theorem splitNl_glue : ∀ (p t : List Char), '\n' ∉ p →
    splitNl (p ++ '\n' :: t) = p :: splitNl t := by
  intro p
  induction p with
  | nil =>
    intro t _
    show splitNl ('\n' :: t) = [] :: splitNl t
    rw [splitNl, if_pos rfl]
  | cons c rest ih =>
    intro t h
    have hc : c ≠ '\n' := fun he => h (he ▸ List.mem_cons_self _ _)
    have hrest : '\n' ∉ rest := fun hm => h (List.mem_cons_of_mem _ hm)
    show splitNl (c :: (rest ++ '\n' :: t)) = (c :: rest) :: splitNl t
    rw [splitNl, if_neg hc, ih t hrest]

/-- Joining newline-free pieces with newlines and re-splitting recovers
the pieces. -/
theorem splitNl_intercalate :
    ∀ parts : List (List Char), parts ≠ [] → (∀ p ∈ parts, '\n' ∉ p) →
      splitNl (List.intercalate ['\n'] parts) = parts := by
  intro parts
  induction parts with
  | nil => intro h _; exact absurd rfl h
  | cons p ps ih =>
    intro _ hall
    cases ps with
    | nil =>
      have : List.intercalate ['\n'] [p] = p := by
        simp [List.intercalate, List.intersperse_singleton]
      rw [this]
      exact splitNl_nlFree p (hall p (List.mem_cons_self _ _))
    | cons q qs =>
      have hstep : List.intercalate ['\n'] (p :: q :: qs)
          = p ++ '\n' :: List.intercalate ['\n'] (q :: qs) := by
        simp [List.intercalate, List.intersperse_cons_cons]
      rw [hstep, splitNl_glue p _ (hall p (List.mem_cons_self _ _))]
      rw [ih (by simp) (fun u hu => hall u (List.mem_cons_of_mem _ hu))]

/-- Every line of the truncated output is at most 150 characters. -/
theorem lines_truncateLines (s : String) :
    ∀ l ∈ pySplitlines (truncateLines s).data, l.length ≤ 150 := by
  intro l hl
  have hdata : (truncateLines s).data
      = List.intercalate ['\n'] ((pySplitlines s.data).map (fun l => l.take 150)) := rfl
  set parts := (pySplitlines s.data).map (fun l => l.take 150) with hparts
  have hmem : l ∈ parts → l.length ≤ 150 := by
    intro hm
    rw [hparts] at hm
    rcases List.mem_map.mp hm with ⟨u, _, rfl⟩
    simp [List.length_take]
  rw [pySplitlines, hdata] at hl
  by_cases hnil : List.intercalate ['\n'] parts = []
  · rw [if_pos hnil] at hl
    exact absurd hl (List.not_mem_nil l)
  · rw [if_neg hnil] at hl
    have hpn : parts ≠ [] := by
      intro he
      rw [he] at hnil
      exact hnil rfl
    have hfree : ∀ p ∈ parts, '\n' ∉ p := by
      intro p hp
      rw [hparts] at hp
      rcases List.mem_map.mp hp with ⟨u, hu, rfl⟩
      intro hmem
      exact splitNl_no_nl s.data u
        (by rw [pySplitlines] at hu
            by_cases hz : s.data = []
            · rw [if_pos hz] at hu; exact absurd hu (List.not_mem_nil u)
            · rw [if_neg hz] at hu
              by_cases hlast : (splitNl s.data).getLast? = some []
              · rw [if_pos hlast] at hu
                exact List.dropLast_subset _ hu
              · rw [if_neg hlast] at hu
                exact hu)
        (List.take_subset _ _ hmem)
    rw [splitNl_intercalate parts hpn hfree] at hl
    by_cases hlast : parts.getLast? = some []
    · rw [if_pos hlast] at hl
      exact hmem (List.dropLast_subset _ hl)
    · rw [if_neg hlast] at hl
      exact hmem hl

/-- Unfolding of a successful definitions query. -/
theorem getDefs_eq (fs : FileSystem) (nav : NavState) (sym : String)
    (F : Option String) (ue : Bool) (files : List String)
    (hl : fs.listing = Except.ok files) :
    get_definitions_tree fs nav sym F ue = Except.ok
      { text := "\nDefinition(s) of `" ++ sym ++ "`:\n" ++
          (tag_list_to_tree fs nav
            (List.insertionSort tagLeP (collectDefTags (buildIndex fs files) sym F)) ue).text
          ++ "\n"
      , nav := (tag_list_to_tree fs nav
          (List.insertionSort tagLeP (collectDefTags (buildIndex fs files) sym F)) ue).nav
      , reads := (tag_list_to_tree fs nav
          (List.insertionSort tagLeP (collectDefTags (buildIndex fs files) sym F)) ue).reads
      , calls := (tag_list_to_tree fs nav
          (List.insertionSort tagLeP (collectDefTags (buildIndex fs files) sym F)) ue).calls
      , files := (tag_list_to_tree fs nav
          (List.insertionSort tagLeP (collectDefTags (buildIndex fs files) sym F)) ue).files
      , tags := List.insertionSort tagLeP (collectDefTags (buildIndex fs files) sym F) } := by
  unfold get_definitions_tree get_parsed_tags
  rw [hl]

/-- Unfolding of a successful references query. -/
theorem getRefs_eq (fs : FileSystem) (nav : NavState) (sym : String)
    (files : List String) (hl : fs.listing = Except.ok files) :
    get_references_tree fs nav sym = Except.ok
      { text := "\nReferences to `" ++ sym ++ "`:\n" ++
          (tag_list_to_tree fs nav
            (List.insertionSort tagLeP (collectRefTags (buildIndex fs files) sym)) false).text
          ++ "\n"
      , nav := (tag_list_to_tree fs nav
          (List.insertionSort tagLeP (collectRefTags (buildIndex fs files) sym)) false).nav
      , reads := (tag_list_to_tree fs nav
          (List.insertionSort tagLeP (collectRefTags (buildIndex fs files) sym)) false).reads
      , calls := (tag_list_to_tree fs nav
          (List.insertionSort tagLeP (collectRefTags (buildIndex fs files) sym)) false).calls
      , files := (tag_list_to_tree fs nav
          (List.insertionSort tagLeP (collectRefTags (buildIndex fs files) sym)) false).files
      , tags := List.insertionSort tagLeP (collectRefTags (buildIndex fs files) sym) } := by
  unfold get_references_tree get_parsed_tags
  rw [hl]

/-- The tag-tree of an empty tag list. -/
theorem tlt_nil (fs : FileSystem) (nav : NavState) (ue : Bool) :
    tag_list_to_tree fs nav [] ue = ⟨"", nav, 0, [], []⟩ := rfl

/-- The tag-tree of a nonempty tag list, via the grouping loop. -/
theorem tlt_cons (fs : FileSystem) (nav : NavState) (tags : List ParsedTag) (ue : Bool)
    (h : tags ≠ []) :
    tag_list_to_tree fs nav tags ue =
      ⟨truncateLines (ttLoop fs ue (tags ++ [dummyTag]) ⟨"", "", [], "", nav, 0, [], []⟩).out
      , (ttLoop fs ue (tags ++ [dummyTag]) ⟨"", "", [], "", nav, 0, [], []⟩).nav
      , (ttLoop fs ue (tags ++ [dummyTag]) ⟨"", "", [], "", nav, 0, [], []⟩).reads
      , (ttLoop fs ue (tags ++ [dummyTag]) ⟨"", "", [], "", nav, 0, [], []⟩).calls
      , (ttLoop fs ue (tags ++ [dummyTag]) ⟨"", "", [], "", nav, 0, [], []⟩).files⟩ := by
  rw [tag_list_to_tree, if_neg h]

/-- Ghost logs of the tag-tree are computed by `ghostSpec` from the
initial group state. -/
theorem tlt_ghost (fs : FileSystem) (nav : NavState) (tags : List ParsedTag) (ue : Bool) :
    (tag_list_to_tree fs nav tags ue).calls = (ghostSpec ue "" "" [] tags).1 ∧
    (tag_list_to_tree fs nav tags ue).files = (ghostSpec ue "" "" [] tags).2 := by
  by_cases h : tags = []
  · subst h
    exact ⟨rfl, rfl⟩
  · rw [tlt_cons fs nav tags ue h]
    obtain ⟨h1, h2⟩ := ttLoop_ghost fs ue tags ⟨"", "", [], "", nav, 0, [], []⟩
    exact ⟨by rw [h1]; rfl, by rw [h2]; rfl⟩

/-- Every tag collected for a definitions query names a nonempty
relative path (extractor and path contracts). -/
theorem collectDef_rel_nonempty (fs : FileSystem) (files : List String)
    (sym : String) (F : Option String) (hE : ExtractWF fs) (hR : RelOfWF fs) :
    ∀ t ∈ collectDefTags (buildIndex fs files) sym F, t.relPath ≠ "" := by
  intro t ht
  obtain ⟨-, rel, -, -, hbucket⟩ := (mem_collectDefTags _ sym F t).mp ht
  obtain ⟨absf, -, hrel, htag⟩ := buildIndex_def_sound fs files rel sym t hbucket
  rw [hE absf (fs.relOf absf) t (hrel ▸ htag)]
  exact hR absf

/-- Every tag collected for a references query names a nonempty
relative path. -/
theorem collectRef_rel_nonempty (fs : FileSystem) (files : List String)
    (sym : String) (hE : ExtractWF fs) (hR : RelOfWF fs) :
    ∀ t ∈ collectRefTags (buildIndex fs files) sym, t.relPath ≠ "" := by
  intro t ht
  obtain ⟨rel, -, hbucket⟩ := (mem_collectRefTags _ sym t).mp ht
  obtain ⟨absf, -, hrel, htag⟩ := buildIndex_ref_sound fs files rel sym t hbucket
  rw [hE absf (fs.relOf absf) t (hrel ▸ htag)]
  exact hR absf

/-- C1: for a symbol with no definition anywhere (here
`NonExistentSymbol`, while the index knows `f` and `g`), the output of
`get_definitions_tree` is the bare header — it contains no "no
definitions found" message and no fuzzy suggestion, contradicting the
claim (and the repository's own test, which expects a message with
suggestions). -/
theorem c1_no_fuzzy_message :
    (get_definitions_tree fsW navEmpty "NonExistentSymbol" none true).map (fun q => q.text)
        = Except.ok "\nDefinition(s) of `NonExistentSymbol`:\n\n" ∧
    strIn "No definitions found" "\nDefinition(s) of `NonExistentSymbol`:\n\n" = false ∧
    strIn "Maybe you meant" "\nDefinition(s) of `NonExistentSymbol`:\n\n" = false :=
  ⟨rfl, by decide, by decide⟩

/-- C2: when the tracked-file listing fails, both query functions
propagate the failure instead of returning an advisory "navigation
unavailable" string, contradicting the claim (and the repository's own
test). -/
theorem c2_listing_failure_propagates :
    get_definitions_tree fsNoGit navEmpty "TestSymbol" none true
        = Except.error "No git repository found" ∧
    get_references_tree fsNoGit navEmpty "TestSymbol"
        = Except.error "No git repository found" :=
  ⟨rfl, rfl⟩

/-- C3 counterexample: the rendered-tree cache key keeps duplicate
lines of interest.  With two overlapping definitions of `f` in `a.py`
(ranges 1–1 and 1–2) the recorded key is `("a.py", [1, 1, 2], 42)` —
sorted but not distinct — and the key built from the spec's words
("sorted distinct lines") for the same call differs and is absent from
the cache. -/
theorem c3_counterexample_key_not_distinct :
    (get_definitions_tree fsW navEmpty "f" none true).map
        (fun q => q.nav.renderedCache.map (fun e => e.1))
      = Except.ok [("a.py", [1, 1, 2], 42), ("b.py", [3, 4], 42)] ∧
    specRenderKey fsW "/r/a.py" "a.py" [1, 1, 2] = ("a.py", [1, 2], 42) ∧
    (get_definitions_tree fsW navEmpty "f" none true).map
        (fun q => alookup (specRenderKey fsW "/r/a.py" "a.py" [1, 1, 2]) q.nav.renderedCache)
      = Except.ok none :=
  ⟨rfl, rfl, rfl⟩

/-- C4: when the file's current modification time strictly exceeds every
modification time recorded in both caches for that file, `render_tree`
re-reads the file (one `read_text` call), builds a fresh parsed context
stored under the new modification time, and returns the render of the
current content — never a cached entry stored under an old modification
time. -/
theorem c4_mtime_increase_rereads (fs : FileSystem) (nav : NavState)
    (absF relF : String) (lois : List Nat)
    (hRC : ∀ L m res, alookup (relF, L, m) nav.renderedCache = some res → m < fs.mtimeOf absF)
    (hFC : ∀ e, alookup relF nav.fileCtxCache = some e → e.mtime < fs.mtimeOf absF) :
    render_tree fs nav absF relF lois =
      ⟨ fs.renderFmt relF (ensureNl ((fs.readText absF).getD "")) (dedupConsec (pySortNat lois))
      , ⟨ alinsert relF ⟨ensureNl ((fs.readText absF).getD ""), fs.mtimeOf absF⟩ nav.fileCtxCache
        , alinsert (renderKey fs absF relF lois)
            (fs.renderFmt relF (ensureNl ((fs.readText absF).getD "")) (dedupConsec (pySortNat lois)))
            nav.renderedCache ⟩
      , 1 ⟩ := by
  cases hm : alookup (renderKey fs absF relF lois) nav.renderedCache with
  | some res =>
    exact absurd (hRC (pySortNat lois) (fs.mtimeOf absF) res hm) (lt_irrefl _)
  | none =>
    cases h2 : alookup relF nav.fileCtxCache with
    | some e =>
      have h3 : e.mtime < fs.mtimeOf absF := hFC e h2
      simp only [render_tree, hm, h2, if_pos h3]
    | none =>
      simp only [render_tree, hm, h2]

/-- Witness for C4: a state whose caches for `a.py` were recorded at
modification time 10, while the file's current modification time is 42. -/
theorem c4_witness :
    render_tree fsW navStale "/r/a.py" "a.py" [1] =
      ⟨ fsW.renderFmt "a.py" (ensureNl ((fsW.readText "/r/a.py").getD "")) (dedupConsec (pySortNat [1]))
      , ⟨ alinsert "a.py" ⟨ensureNl ((fsW.readText "/r/a.py").getD ""), fsW.mtimeOf "/r/a.py"⟩ navStale.fileCtxCache
        , alinsert (renderKey fsW "/r/a.py" "a.py" [1])
            (fsW.renderFmt "a.py" (ensureNl ((fsW.readText "/r/a.py").getD "")) (dedupConsec (pySortNat [1])))
            navStale.renderedCache ⟩
      , 1 ⟩ :=
  c4_mtime_increase_rereads fsW navStale "/r/a.py" "a.py" [1]
    (by intro L m res h
        simp only [navStale, alookup] at h
        split at h
        · rename_i heq
          simp only [Prod.mk.injEq] at heq
          have hm : m = 10 := heq.2.2.symm
          subst hm
          decide
        · exact absurd h (by simp))
    (by intro e h
        simp only [navStale, alookup] at h
        split at h
        · injection h with h2
          rw [← h2]
          decide
        · exact absurd h (by simp))

/-- C8 amended: every line of the per-file tree text produced by
`tag_list_to_tree` is truncated to at most 150 characters (the
surrounding header line added by the query functions is not). -/
theorem c8_tree_lines_le_150 (fs : FileSystem) (nav : NavState)
    (tags : List ParsedTag) (ue : Bool) :
    ∀ l ∈ pySplitlines ((tag_list_to_tree fs nav tags ue).text).data, l.length ≤ 150 := by
  intro l hl
  by_cases h : tags = []
  · subst h
    rw [tlt_nil] at hl
    simp [pySplitlines] at hl
  · rw [tlt_cons fs nav tags ue h] at hl
    exact lines_truncateLines _ l hl

/-- C8 counterexample: for a 131-character symbol, the final text
returned by the definitions query has a line of 151 characters (the
untruncated header), so not every line of the final text is at most 150
characters. -/
theorem c8_counterexample_long_header :
    ((get_definitions_tree fsW navEmpty s131 none true).map
        (fun q => (pySplitlines q.text.data).map List.length))
      = Except.ok [0, 151, 0] ∧
    ¬ (151 : Nat) ≤ 150 :=
  ⟨by set_option maxRecDepth 10000 in rfl, by decide⟩

/-- Witness for the C8 theorem at a concrete render. -/
theorem c8_witness :
    ("a.py:".data ∈ pySplitlines ((tag_list_to_tree fsW navEmpty tagsW true).text).data) ∧
    ("a.py:".data).length ≤ 150 :=
  ⟨by decide, c8_tree_lines_le_150 fsW navEmpty tagsW true ("a.py:".data) (by decide)⟩

/-- Skipped files contribute nothing: the scan over all tracked files
builds the same index as the scan over the files whose extraction
succeeds. -/
theorem buildIndex_skips (fs : FileSystem) :
    ∀ files : List String,
      buildIndex fs files
        = buildIndex fs (files.filter (fun f => (fs.extract f (fs.relOf f)).isSome)) := by
  have aux : ∀ (files : List String) (idx : SymbolIndex),
      files.foldl
          (fun idx absFile =>
            (get_tags_from_file fs absFile (fs.relOf absFile)).foldl
              (addTagToIndex (fs.relOf absFile)) idx) idx
        = (files.filter (fun f => (fs.extract f (fs.relOf f)).isSome)).foldl
            (fun idx absFile =>
              (get_tags_from_file fs absFile (fs.relOf absFile)).foldl
                (addTagToIndex (fs.relOf absFile)) idx) idx := by
    intro files
    induction files with
    | nil => intro idx; rfl
    | cons f fsx ih =>
      intro idx
      by_cases hf : (fs.extract f (fs.relOf f)).isSome
      · rw [List.filter_cons_of_pos (by simpa using hf)]
        exact ih _
      · rw [List.filter_cons_of_neg (by simpa using hf)]
        have hnone : fs.extract f (fs.relOf f) = none :=
          Option.not_isSome_iff_eq_none.mp hf
        have hskip : get_tags_from_file fs f (fs.relOf f) = [] := by
          rw [get_tags_from_file, hnone]
          rfl
        rw [List.foldl_cons, hskip]
        exact ih idx
  intro files
  exact aux files emptyIndex

/-- C9: during index construction, a per-file extraction failure or
unreadable file (modelled from the spec as an empty extraction result)
does not abort the scan: `get_parsed_tags` still succeeds and returns
the index built from the files whose extraction succeeded. -/
theorem c9_extraction_failure_skipped (fs : FileSystem) (files : List String)
    (hl : fs.listing = Except.ok files) :
    get_parsed_tags fs
      = Except.ok (buildIndex fs (files.filter (fun f => (fs.extract f (fs.relOf f)).isSome))) := by
  unfold get_parsed_tags
  rw [hl]
  show Except.ok (buildIndex fs files) = _
  rw [buildIndex_skips fs files]

/-- Witness for C9: a listing with an unparsable file between two good
ones; the filter keeps exactly the two good files. -/
theorem c9_witness :
    get_parsed_tags fsFail
      = Except.ok (buildIndex fsFail
          ((["/r/a.py", "/r/broken.bin", "/r/b.py"] : List String).filter
            (fun f => (fsFail.extract f (fsFail.relOf f)).isSome))) ∧
    (["/r/a.py", "/r/broken.bin", "/r/b.py"] : List String).filter
        (fun f => (fsFail.extract f (fsFail.relOf f)).isSome)
      = ["/r/a.py", "/r/b.py"] :=
  ⟨c9_extraction_failure_skipped fsFail ["/r/a.py", "/r/broken.bin", "/r/b.py"] rfl,
   by decide⟩

/-- C10: every successful definitions result is the newline, the header
line `Definition(s) of \`symbol\`:`, a newline, a body and a trailing
newline; every successful references result likewise begins with its
`References to \`symbol\`:` header; and for the empty symbol the
definitions query skips the index lookup and returns exactly the header
with no file sections, no reads and no render calls. -/
theorem c10_headers :
    (∀ (fs : FileSystem) (nav : NavState) (sym : String) (F : Option String) (ue : Bool)
        (q : QueryOut), get_definitions_tree fs nav sym F ue = Except.ok q →
      ∃ body, q.text = "\nDefinition(s) of `" ++ sym ++ "`:\n" ++ body ++ "\n") ∧
    (∀ (fs : FileSystem) (nav : NavState) (sym : String) (q : QueryOut),
        get_references_tree fs nav sym = Except.ok q →
      ∃ body, q.text = "\nReferences to `" ++ sym ++ "`:\n" ++ body ++ "\n") ∧
    (∀ (fs : FileSystem) (nav : NavState) (F : Option String) (ue : Bool)
        (files : List String), fs.listing = Except.ok files →
      get_definitions_tree fs nav "" F ue
        = Except.ok ⟨"\nDefinition(s) of ``:\n\n", nav, 0, [], [], []⟩) := by
  refine ⟨?_, ?_, ?_⟩
  · intro fs nav sym F ue q hq
    cases hfs : fs.listing with
    | error e =>
      unfold get_definitions_tree get_parsed_tags at hq
      rw [hfs] at hq
      exact Except.noConfusion hq
    | ok files =>
      rw [getDefs_eq fs nav sym F ue files hfs] at hq
      injection hq with h
      subst h
      exact ⟨_, rfl⟩
  · intro fs nav sym q hq
    cases hfs : fs.listing with
    | error e =>
      unfold get_references_tree get_parsed_tags at hq
      rw [hfs] at hq
      exact Except.noConfusion hq
    | ok files =>
      rw [getRefs_eq fs nav sym files hfs] at hq
      injection hq with h
      subst h
      exact ⟨_, rfl⟩
  · intro fs nav F ue files hl
    rw [getDefs_eq fs nav "" F ue files hl]
    rfl

/-- Witness for C10 at a concrete tree. -/
theorem c10_witness :
    get_definitions_tree fsW navEmpty "" none true
      = Except.ok ⟨"\nDefinition(s) of ``:\n\n", navEmpty, 0, [], [], []⟩ :=
  c10_headers.2.2 fsW navEmpty none true ["/r/a.py", "/r/b.py"] rfl

/-- Replaying `tag_list_to_tree` from the cache state it produced
yields the same text with no reads and no cache change, and every
logged render call's key is cached. -/
theorem tlt_replay (fs : FileSystem) (nav : NavState) (tags : List ParsedTag) (ue : Bool) :
    tag_list_to_tree fs (tag_list_to_tree fs nav tags ue).nav tags ue
      = { tag_list_to_tree fs nav tags ue with reads := 0 } ∧
    ∀ c ∈ (tag_list_to_tree fs nav tags ue).calls, ∃ res,
      alookup (renderKey fs c.absFile c.relFile c.lois)
        (tag_list_to_tree fs nav tags ue).nav.renderedCache = some res := by
  by_cases h : tags = []
  · subst h
    refine ⟨rfl, ?_⟩
    intro c hc
    exact absurd hc (List.not_mem_nil c)
  · obtain ⟨g1, g2, d, g3, g4⟩ := ttLoop_replay fs ue (tags ++ [dummyTag])
      ⟨"", "", [], "", nav, 0, [], []⟩
      ⟨"", "", [], "",
        (ttLoop fs ue (tags ++ [dummyTag]) ⟨"", "", [], "", nav, 0, [], []⟩).nav, 0, [], []⟩
      rfl rfl rfl rfl
    have hkeys := ttLoop_keys fs ue (tags ++ [dummyTag])
      (⟨"", "", [], "", nav, 0, [], []⟩ : LoopSt)
      (by intro c hc; exact absurd hc (List.not_mem_nil c))
    obtain ⟨hA1, hA2⟩ := ttLoop_ghost fs ue tags (⟨"", "", [], "", nav, 0, [], []⟩ : LoopSt)
    obtain ⟨hB1, hB2⟩ := ttLoop_ghost fs ue tags
      (⟨"", "", [], "",
        (ttLoop fs ue (tags ++ [dummyTag]) ⟨"", "", [], "", nav, 0, [], []⟩).nav, 0, [], []⟩ : LoopSt)
    constructor
    · rw [tlt_cons fs nav tags ue h]
      show tag_list_to_tree fs
          (ttLoop fs ue (tags ++ [dummyTag]) ⟨"", "", [], "", nav, 0, [], []⟩).nav tags ue = _
      rw [tlt_cons fs _ tags ue h]
      have hout : (ttLoop fs ue (tags ++ [dummyTag])
          ⟨"", "", [], "",
            (ttLoop fs ue (tags ++ [dummyTag]) ⟨"", "", [], "", nav, 0, [], []⟩).nav, 0, [], []⟩).out
          = (ttLoop fs ue (tags ++ [dummyTag]) ⟨"", "", [], "", nav, 0, [], []⟩).out :=
        g4.trans g3.symm
      rw [hout, g1, g2, hB1, hB2, hA1, hA2]
    · intro c hc
      rw [tlt_cons fs nav tags ue h] at hc ⊢
      exact hkeys c hc

/-- C3 amended: a second `findDefinitions` call against an unchanged
tree returns the byte-identical string, performs zero `read_text` calls
and leaves the caches untouched, because each group's render is served
from the rendered-tree cache, whose key is the relative path, the
sorted lines of interest with duplicates preserved, and the
modification time; each logged render call's key is indeed cached after
the first call. -/
theorem c3_second_call_idempotent (fs : FileSystem) (nav : NavState) (sym : String)
    (F : Option String) (ue : Bool) (q : QueryOut)
    (hq : get_definitions_tree fs nav sym F ue = Except.ok q) :
    get_definitions_tree fs q.nav sym F ue = Except.ok { q with reads := 0 } ∧
    ∀ c ∈ q.calls, ∃ res,
      alookup (renderKey fs c.absFile c.relFile c.lois) q.nav.renderedCache = some res := by
  cases hfs : fs.listing with
  | error e =>
    unfold get_definitions_tree get_parsed_tags at hq
    rw [hfs] at hq
    exact Except.noConfusion hq
  | ok files =>
    rw [getDefs_eq fs nav sym F ue files hfs] at hq
    injection hq with h
    have hnav : (tag_list_to_tree fs nav
        (List.insertionSort tagLeP (collectDefTags (buildIndex fs files) sym F)) ue).nav
        = q.nav := congrArg QueryOut.nav h
    have htext : ("\nDefinition(s) of `" ++ sym ++ "`:\n" ++
        (tag_list_to_tree fs nav
          (List.insertionSort tagLeP (collectDefTags (buildIndex fs files) sym F)) ue).text
        ++ "\n") = q.text := congrArg QueryOut.text h
    have hcalls : (tag_list_to_tree fs nav
        (List.insertionSort tagLeP (collectDefTags (buildIndex fs files) sym F)) ue).calls
        = q.calls := congrArg QueryOut.calls h
    have hfiles : (tag_list_to_tree fs nav
        (List.insertionSort tagLeP (collectDefTags (buildIndex fs files) sym F)) ue).files
        = q.files := congrArg QueryOut.files h
    have htags : List.insertionSort tagLeP (collectDefTags (buildIndex fs files) sym F)
        = q.tags := congrArg QueryOut.tags h
    obtain ⟨hrepl, hkeys⟩ := tlt_replay fs nav
      (List.insertionSort tagLeP (collectDefTags (buildIndex fs files) sym F)) ue
    constructor
    · rw [← hnav, getDefs_eq fs _ sym F ue files hfs, hrepl]
      rw [← htext, ← hcalls, ← hfiles, ← htags]
    · intro c hc
      rw [← hnav]
      exact hkeys c (hcalls.symm ▸ hc)

/-- Witness for C3 at a concrete first run. -/
theorem c3_witness :
    get_definitions_tree fsW defsRunW.nav "f" none true
        = Except.ok { defsRunW with reads := 0 } ∧
    ∀ c ∈ defsRunW.calls, ∃ res,
      alookup (renderKey fsW c.absFile c.relFile c.lois) defsRunW.nav.renderedCache
        = some res :=
  c3_second_call_idempotent fsW navEmpty "f" none true defsRunW rfl

/-- The fixture extractor satisfies the extractor contract. -/
theorem fsW_extractWF : ExtractWF fsW := by
  intro absf relf t ht
  by_cases h1 : absf = "/r/a.py"
  · simp only [get_tags_from_file, fsW, h1, if_pos rfl, Option.getD_some] at ht
    fin_cases ht <;> rfl
  · by_cases h2 : absf = "/r/b.py"
    · simp only [get_tags_from_file, fsW, if_neg h1, h2, if_pos rfl, Option.getD_some] at ht
      fin_cases ht <;> rfl
    · simp only [get_tags_from_file, fsW, if_neg h1, if_neg h2] at ht
      simp at ht

/-- The fixture path conversion yields nonempty relative paths. -/
theorem fsW_relOfWF : RelOfWF fsW := by
  intro absf
  show (if absf = "/r/a.py" then "a.py"
        else if absf = "/r/b.py" then "b.py" else "c.py") ≠ ""
  split_ifs <;> decide

/-- C5: the tags rendered by a definitions query are sorted by
`(relative_path, start_line)`, the emitted file sections are the
consecutive-dedup of the tags' relative paths (each matching file at
most once, all hits of a file contiguous), and the file sections are
strictly ascending in path order. -/
theorem c5_sorted_grouped (fs : FileSystem) (nav : NavState) (sym : String)
    (F : Option String) (ue : Bool) (q : QueryOut)
    (hE : ExtractWF fs) (hR : RelOfWF fs)
    (hq : get_definitions_tree fs nav sym F ue = Except.ok q) :
    q.tags.Pairwise tagLeP ∧
    q.files = dedupConsec (q.tags.map ParsedTag.relPath) ∧
    q.files.Pairwise strLt := by
  cases hfs : fs.listing with
  | error e =>
    unfold get_definitions_tree get_parsed_tags at hq
    rw [hfs] at hq
    exact Except.noConfusion hq
  | ok files =>
    rw [getDefs_eq fs nav sym F ue files hfs] at hq
    injection hq with h
    have htags : List.insertionSort tagLeP (collectDefTags (buildIndex fs files) sym F)
        = q.tags := congrArg QueryOut.tags h
    have hfiles : (tag_list_to_tree fs nav
        (List.insertionSort tagLeP (collectDefTags (buildIndex fs files) sym F)) ue).files
        = q.files := congrArg QueryOut.files h
    have hall : ∀ t ∈ List.insertionSort tagLeP (collectDefTags (buildIndex fs files) sym F),
        t.relPath ≠ "" := by
      intro t ht
      exact collectDef_rel_nonempty fs files sym F hE hR t
        ((List.mem_insertionSort tagLeP).mp ht)
    have hsort : (List.insertionSort tagLeP
        (collectDefTags (buildIndex fs files) sym F)).Pairwise tagLeP := by
      haveI : IsTotal ParsedTag tagLeP := ⟨tagLeP_total⟩
      haveI : IsTrans ParsedTag tagLeP := ⟨tagLeP_trans⟩
      exact List.sorted_insertionSort tagLeP _
    obtain ⟨-, hgf⟩ := tlt_ghost fs nav
      (List.insertionSort tagLeP (collectDefTags (buildIndex fs files) sym F)) ue
    refine ⟨htags ▸ hsort, ?_, ?_⟩
    · rw [← htags, ← hfiles, hgf, ghostSpec_files_top ue _ "" hall]
    · rw [← hfiles, hgf, ghostSpec_files_top ue _ "" hall]
      exact dedupConsec_sorted_strict _
        (hsort.map ParsedTag.relPath (fun a b hab => tagLe_relLe hab))

/-- Witness for C5 at a concrete definitions query. -/
theorem c5_witness :
    defsRunW.tags.Pairwise tagLeP ∧
    defsRunW.files = dedupConsec (defsRunW.tags.map ParsedTag.relPath) ∧
    defsRunW.files.Pairwise strLt :=
  c5_sorted_grouped fsW navEmpty "f" none true defsRunW fsW_extractWF fsW_relOfWF rfl

/-- C6: for every render call of a definitions query, the lines of
interest are exactly the union of the full inclusive ranges
`[start_line, end_line]` of that file's matched definition tags; for a
references query they are exactly the tags' start lines. -/
theorem c6_lois_semantics (fs : FileSystem) (navd navr : NavState) (sym : String)
    (qd qr : QueryOut) (hE : ExtractWF fs) (hR : RelOfWF fs)
    (hqd : get_definitions_tree fs navd sym none true = Except.ok qd)
    (hqr : get_references_tree fs navr sym = Except.ok qr) :
    (∀ c ∈ qd.calls, ∀ n, n ∈ c.lois ↔
      ∃ t, t ∈ qd.tags ∧ t.relPath = c.relFile ∧ t.startLine ≤ n ∧ n ≤ t.endLine) ∧
    (∀ c ∈ qr.calls, ∀ n, n ∈ c.lois ↔
      ∃ t, t ∈ qr.tags ∧ t.relPath = c.relFile ∧ n = t.startLine) := by
  cases hfs : fs.listing with
  | error e =>
    unfold get_definitions_tree get_parsed_tags at hqd
    rw [hfs] at hqd
    exact Except.noConfusion hqd
  | ok files =>
    rw [getDefs_eq fs navd sym none true files hfs] at hqd
    rw [getRefs_eq fs navr sym files hfs] at hqr
    injection hqd with hd
    injection hqr with hr
    haveI : IsTotal ParsedTag tagLeP := ⟨tagLeP_total⟩
    haveI : IsTrans ParsedTag tagLeP := ⟨tagLeP_trans⟩
    constructor
    · have htags : List.insertionSort tagLeP (collectDefTags (buildIndex fs files) sym none)
          = qd.tags := congrArg QueryOut.tags hd
      have hcalls : (tag_list_to_tree fs navd
          (List.insertionSort tagLeP (collectDefTags (buildIndex fs files) sym none)) true).calls
          = qd.calls := congrArg QueryOut.calls hd
      have hall : ∀ t ∈ List.insertionSort tagLeP
          (collectDefTags (buildIndex fs files) sym none), t.relPath ≠ "" := by
        intro t ht
        exact collectDef_rel_nonempty fs files sym none hE hR t
          ((List.mem_insertionSort tagLeP).mp ht)
      have hsort := List.sorted_insertionSort tagLeP
        (collectDefTags (buildIndex fs files) sym none)
      intro c hc n
      have hc1 : c ∈ (tag_list_to_tree fs navd
          (List.insertionSort tagLeP (collectDefTags (buildIndex fs files) sym none)) true).calls := by
        rw [hcalls]; exact hc
      obtain ⟨hgc, -⟩ := tlt_ghost fs navd
        (List.insertionSort tagLeP (collectDefTags (buildIndex fs files) sym none)) true
      rw [hgc] at hc1
      obtain ⟨-, hlo⟩ := ghostSpec_calls_top true _ "" hsort hall c hc1
      rw [hlo, mem_loisConcat, ← htags]
      constructor
      · rintro ⟨t, htf, hn⟩
        rw [List.mem_filter] at htf
        obtain ⟨htm, hpr⟩ := htf
        have hrel : t.relPath = c.relFile := of_decide_eq_true hpr
        have hn2 : n ∈ rangeIncl t.startLine t.endLine := by
          simpa [loisOf] using hn
        obtain ⟨hs, he⟩ := (mem_rangeIncl _ _ _).mp hn2
        exact ⟨t, htm, hrel, hs, he⟩
      · rintro ⟨t, htm, hrel, hs, he⟩
        refine ⟨t, ?_, ?_⟩
        · rw [List.mem_filter]
          exact ⟨htm, decide_eq_true hrel⟩
        · simpa [loisOf] using (mem_rangeIncl t.startLine t.endLine n).mpr ⟨hs, he⟩
    · have htags : List.insertionSort tagLeP (collectRefTags (buildIndex fs files) sym)
          = qr.tags := congrArg QueryOut.tags hr
      have hcalls : (tag_list_to_tree fs navr
          (List.insertionSort tagLeP (collectRefTags (buildIndex fs files) sym)) false).calls
          = qr.calls := congrArg QueryOut.calls hr
      have hall : ∀ t ∈ List.insertionSort tagLeP
          (collectRefTags (buildIndex fs files) sym), t.relPath ≠ "" := by
        intro t ht
        exact collectRef_rel_nonempty fs files sym hE hR t
          ((List.mem_insertionSort tagLeP).mp ht)
      have hsort := List.sorted_insertionSort tagLeP
        (collectRefTags (buildIndex fs files) sym)
      intro c hc n
      have hc1 : c ∈ (tag_list_to_tree fs navr
          (List.insertionSort tagLeP (collectRefTags (buildIndex fs files) sym)) false).calls := by
        rw [hcalls]; exact hc
      obtain ⟨hgc, -⟩ := tlt_ghost fs navr
        (List.insertionSort tagLeP (collectRefTags (buildIndex fs files) sym)) false
      rw [hgc] at hc1
      obtain ⟨-, hlo⟩ := ghostSpec_calls_top false _ "" hsort hall c hc1
      rw [hlo, mem_loisConcat, ← htags]
      constructor
      · rintro ⟨t, htf, hn⟩
        rw [List.mem_filter] at htf
        obtain ⟨htm, hpr⟩ := htf
        have hrel : t.relPath = c.relFile := of_decide_eq_true hpr
        have hn2 : n = t.startLine := by
          simpa [loisOf] using hn
        exact ⟨t, htm, hrel, hn2⟩
      · rintro ⟨t, htm, hrel, hn⟩
        refine ⟨t, ?_, ?_⟩
        · rw [List.mem_filter]
          exact ⟨htm, decide_eq_true hrel⟩
        · simp [loisOf, hn]

/-- Witness for C6 at concrete definitions and references queries. -/
theorem c6_witness :
    (∀ c ∈ defsRunW.calls, ∀ n, n ∈ c.lois ↔
      ∃ t, t ∈ defsRunW.tags ∧ t.relPath = c.relFile ∧ t.startLine ≤ n ∧ n ≤ t.endLine) ∧
    (∀ c ∈ refsRunW.calls, ∀ n, n ∈ c.lois ↔
      ∃ t, t ∈ refsRunW.tags ∧ t.relPath = c.relFile ∧ n = t.startLine) :=
  c6_lois_semantics fsW navEmpty navEmpty "f" defsRunW refsRunW
    fsW_extractWF fsW_relOfWF rfl rfl

/-- C7: with a relative-path filter, the definitions query renders
exactly those definition tags of the symbol whose relative path
contains the filter as a substring. -/
theorem c7_path_filter (fs : FileSystem) (nav1 nav2 : NavState) (sym F : String)
    (ue : Bool) (q qAll : QueryOut) (hE : ExtractWF fs)
    (hq : get_definitions_tree fs nav1 sym (some F) ue = Except.ok q)
    (hqa : get_definitions_tree fs nav2 sym none ue = Except.ok qAll) :
    ∀ t, t ∈ q.tags ↔ (t ∈ qAll.tags ∧ strIn F t.relPath = true) := by
  cases hfs : fs.listing with
  | error e =>
    unfold get_definitions_tree get_parsed_tags at hq
    rw [hfs] at hq
    exact Except.noConfusion hq
  | ok files =>
    rw [getDefs_eq fs nav1 sym (some F) ue files hfs] at hq
    rw [getDefs_eq fs nav2 sym none ue files hfs] at hqa
    injection hq with h
    injection hqa with ha
    have htags : List.insertionSort tagLeP (collectDefTags (buildIndex fs files) sym (some F))
        = q.tags := congrArg QueryOut.tags h
    have htagsA : List.insertionSort tagLeP (collectDefTags (buildIndex fs files) sym none)
        = qAll.tags := congrArg QueryOut.tags ha
    intro t
    rw [← htags, ← htagsA, List.mem_insertionSort, List.mem_insertionSort,
      mem_collectDefTags, mem_collectDefTags]
    constructor
    · rintro ⟨hs, rel, hrel, hflt, hbucket⟩
      have hrelp : t.relPath = rel := by
        obtain ⟨absf, -, hre, htg⟩ := buildIndex_def_sound fs files rel sym t hbucket
        exact (hE absf (fs.relOf absf) t (hre ▸ htg)).trans hre.symm
      refine ⟨⟨hs, rel, hrel, fun f hf => (Option.noConfusion hf : strIn f rel = true), hbucket⟩, ?_⟩
      exact hrelp.symm ▸ hflt F rfl
    · rintro ⟨⟨hs, rel, hrel, -, hbucket⟩, hstr⟩
      have hrelp : t.relPath = rel := by
        obtain ⟨absf, -, hre, htg⟩ := buildIndex_def_sound fs files rel sym t hbucket
        exact (hE absf (fs.relOf absf) t (hre ▸ htg)).trans hre.symm
      refine ⟨hs, rel, hrel, ?_, hbucket⟩
      intro f hf
      injection hf with hf2
      subst hf2
      exact hrelp ▸ hstr

/-- Witness for C7 at a concrete filtered query and tag. -/
theorem c7_witness :
    (⟨"/r/b.py", "b.py", "f", TagKind.DEF, 3, 4⟩ : ParsedTag) ∈ defsRunWFil.tags ↔
      ((⟨"/r/b.py", "b.py", "f", TagKind.DEF, 3, 4⟩ : ParsedTag) ∈ defsRunW.tags ∧
        strIn "b" "b.py" = true) :=
  c7_path_filter fsW navEmpty navEmpty "f" "b" true defsRunWFil defsRunW
    fsW_extractWF rfl rfl ⟨"/r/b.py", "b.py", "f", TagKind.DEF, 3, 4⟩
